import Mathlib

/-!
# Verification of the unipolar SPWM lookup-table generator

Shallow embedding of the repository's two translation units:

* `spwm_lut.cpp` — `spwm_unipolar_arrays`, the waveform synthesizer that fills
  two ON/OFF duration tables (one per H-bridge leg) by locating the crossings
  of a sinusoidal reference against a triangular carrier, quarter-carrier-cycle
  by quarter-carrier-cycle, exploiting waveform symmetry.
* `main.cpp` — the dead-time adjustment applied to every table entry and both
  sync offsets, and the sync-output half-period computation.

Modelling choices:

* Machine integers are modelled as `ℕ` / `ℤ`.  The two places where `uint32_t`
  wrap-around is actually reachable for the values handled (the dead-time
  subtraction and the sync-output subtraction in `main.cpp`) are modelled with
  an explicit `% 2^32`.  Inside the synthesizer every quantity provably stays
  far below `2^32` for every configuration considered by the theorems below
  (see the hypotheses `cq ≤ scaling_factor`, `4 ≤ mf`, and the oracle bound),
  so plain `ℕ`/`ℤ` arithmetic coincides with the C semantics there.
* `carrier_duration_quarter` is computed in C by a floating-point
  division from `signal_freq` (spwm_lut.cpp line 71); we take the resulting
  tick count `cq` as the parameter of the embedding.  For the shipped
  configuration (50 Hz, mf = 256, 10 ns steps) it equals 1953.
* The only floating-point operation inside the search loops is
  `ma_scaled * sin(omega * t)` truncated to `int32_t`.  We abstract it as an
  oracle `sinA : ℕ → ℤ`, the truncated scaled sine sample at tick `t`
  (`s2_amplitude` in the C code is `-1 *` this same expression, and is
  modelled as `-sinA t`).  Theorems quantify over every oracle satisfying the
  properties guaranteed by `|sin| ≤ 1` and `0 < ma < 1`
  (`|sinA t| < scaling_factor`, plus sign/crossing facts recorded in the
  hypotheses of the individual theorems).
* The state record carries ghost fields (`w1`, `w2`, `crossings`, `cycles`)
  recording the store addresses, the captured crossing ticks and the number of
  outer-loop iterations; they influence nothing else and exist so that
  in-bounds/coverage/monotonicity claims can be stated.
-/

namespace SpwmUni

/-! ## Constants (spwm_lut.cpp line 8, main.cpp lines 60–69) -/

/-- `#define scaling_factor 1000000` (spwm_lut.cpp line 8). -/
def scaling_factor : ℕ := 1000000

/-- `#define DEAD_TIME 50` (main.cpp line 64). -/
def DEAD_TIME : ℕ := 50

/-- `#define DEADTIME_COMPENSATION 2` (main.cpp line 65). -/
def DEADTIME_COMPENSATION : ℕ := 2

/-- `#define IE_DELAY_COMPENSATION 3` (main.cpp line 66). -/
def IE_DELAY_COMPENSATION : ℕ := 3

/-- `#define NET_DEADTIME_COUNT (DEAD_TIME-DEADTIME_COMPENSATION)` (main.cpp line 69). -/
def NET_DEADTIME_COUNT : ℕ := DEAD_TIME - DEADTIME_COMPENSATION

/-- Modulus of `uint32_t` arithmetic. -/
def U32 : ℕ := 2 ^ 32

/-! ## main.cpp: dead-time adjustment and sync-output half duration -/

/-- main.cpp lines 155, 159, 164, 167:
`x = x - DEAD_TIME - IE_DELAY_COMPENSATION` on a `uint32_t` value, i.e.
subtraction modulo `2^32`.  This is applied to both sync counts and to every
entry of both lookup tables. -/
def adjustDeadtime (raw : ℕ) : ℕ :=
  (raw % U32 + U32 - DEAD_TIME - IE_DELAY_COMPENSATION) % U32

/-- main.cpp lines 162–169: the per-entry adjustment loop over a whole table. -/
def adjustTables (t : List ℕ) : List ℕ := t.map adjustDeadtime

/-- main.cpp line 171:
`uint32_t sync_out_half_duration = ((signal_duration/2)-DEADTIME_COMPENSATION);`. -/
def sync_out_half_duration (signal_duration : ℕ) : ℕ :=
  (signal_duration % U32 / 2 + U32 - DEADTIME_COMPENSATION) % U32

/-- Claim C1 (counterexample): the code subtracts the full `DEAD_TIME` plus
`IE_DELAY_COMPENSATION` (50 + 3 = 53), not `(DEAD_TIME − DEADTIME_COMPENSATION)
+ IE_DELAY_COMPENSATION` (48 + 3 = 51) as the claim states.  At the raw value
1944 (the first entry of the recorded reference fixture `SPWM_array`), the
published value is 1891, while the claim predicts 1893. -/
theorem c1_counterexample :
    adjustDeadtime 1944 = 1891 ∧
    1944 - (DEAD_TIME - DEADTIME_COMPENSATION) - IE_DELAY_COMPENSATION = 1893 ∧
    adjustDeadtime 1944 ≠
      1944 - (DEAD_TIME - DEADTIME_COMPENSATION) - IE_DELAY_COMPENSATION := by
  refine ⟨by decide, by decide, by decide⟩

/-- Claim C1 (amended): for every raw duration-table entry and for both raw
sync offsets, the dead-time-adjusted value equals
`raw − DEAD_TIME − IE_DELAY_COMPENSATION` (i.e. `raw − 53` with the compiled
constants); the deadtime instruction compensation is not part of this
adjustment (it is applied instead when `NET_DEADTIME_COUNT` is loaded into
the hardware sequencer, main.cpp lines 202/224). -/
theorem c1_dead_time_adjust (l : List ℕ) (i raw : ℕ)
    (hi : l.get? i = some raw)
    (hlo : DEAD_TIME + IE_DELAY_COMPENSATION ≤ raw) (hhi : raw < U32) :
    (adjustTables l).get? i
      = some (raw - DEAD_TIME - IE_DELAY_COMPENSATION) ∧
    adjustDeadtime raw = raw - DEAD_TIME - IE_DELAY_COMPENSATION := by
  have hadj : adjustDeadtime raw = raw - DEAD_TIME - IE_DELAY_COMPENSATION := by
    simp only [adjustDeadtime, DEAD_TIME, IE_DELAY_COMPENSATION, U32] at *
    omega
  refine ⟨?_, hadj⟩
  simp only [adjustTables, List.get?_map, hi, Option.map_some', hadj]

/-- Claim C1 (witness for the amended theorem): concrete instance at the
fixture value 1944. -/
theorem c1_dead_time_adjust_witness :
    (adjustTables [1944]).get? 0
      = some (1944 - DEAD_TIME - IE_DELAY_COMPENSATION) ∧
    adjustDeadtime 1944 = 1944 - DEAD_TIME - IE_DELAY_COMPENSATION :=
  c1_dead_time_adjust [1944] 0 1944 (by decide) (by decide) (by decide)

/-- Claim C3 (counterexample): the half-period loaded into the sync-output
generator is `(signal_duration / 2) − DEADTIME_COMPENSATION` (main.cpp
line 171), not `(signal_duration / 2) − IE_DELAY_COMPENSATION` as the claim
states.  At the synthesized total period of the shipped configuration
(4 · 1953 · 256 = 1999872 ticks) the code loads 999934, the claim predicts
999933. -/
theorem c3_counterexample :
    sync_out_half_duration 1999872 = 999934 ∧
    1999872 / 2 - IE_DELAY_COMPENSATION = 999933 ∧
    sync_out_half_duration 1999872 ≠ 1999872 / 2 - IE_DELAY_COMPENSATION := by
  refine ⟨by decide, by decide, by decide⟩

/-- Claim C3 (amended): the half-period constant loaded into the sync-output
generator equals `(total_signal_period / 2) − DEADTIME_COMPENSATION`, where
`DEADTIME_COMPENSATION = 2` is the dead-time instruction compensation
constant. -/
theorem c3_sync_out_half (d : ℕ)
    (hlo : DEADTIME_COMPENSATION ≤ d / 2) (hhi : d < U32) :
    sync_out_half_duration d = d / 2 - DEADTIME_COMPENSATION := by
  simp only [sync_out_half_duration, DEADTIME_COMPENSATION, U32] at *
  omega

/-- Claim C3 (witness for the amended theorem): concrete instance at the
shipped configuration's total period. -/
theorem c3_sync_out_half_witness :
    sync_out_half_duration 1999872 = 1999872 / 2 - DEADTIME_COMPENSATION :=
  c3_sync_out_half 1999872 (by decide) (by decide)

/-! ## spwm_lut.cpp: the waveform synthesizer

Derived quantities (spwm_lut.cpp lines 71–96).  `cq` stands for
`carrier_duration_quarter`; `slope` for `carrier_slope`. -/

/-- `uint32_t carrier_duration = (4 * carrier_duration_quarter);` (line 74). -/
def carrier_duration (cq : ℕ) : ℕ := 4 * cq

/-- `int32_t carrier_slope = scaling_factor / carrier_duration_quarter;` (line 83). -/
def carrier_slope (cq : ℕ) : ℕ := scaling_factor / cq

/-- `uint32_t signal_duration = (carrier_duration * mf);` (line 87). -/
def signal_duration (cq mf : ℕ) : ℕ := carrier_duration cq * mf

/-- `uint32_t signal_duration_quarter = (signal_duration / 4);` (line 88). -/
def signal_duration_quarter (cq mf : ℕ) : ℕ := signal_duration cq mf / 4

/-- The mutable state of `spwm_unipolar_arrays` (spwm_lut.cpp lines 101–139).
`h1`/`h2` are the two caller-provided tables; `r1`–`r4` are the indices of
`p_h1_ref1`–`p_h1_ref4` relative to `p_h1_high`, and `q1`–`q4` those of
`p_h2_ref1`–`p_h2_ref4` relative to `p_h2_high`.  `w1`, `w2`, `crossings`
and `cycles` are ghost instrumentation: every store to `h1` (resp. `h2`)
appends its (index, value) pair to `w1` (resp. `w2`), every captured
crossing appends `(cycle, quarter, time_counter)` to `crossings`, and
`cycles` counts outer-loop iterations. -/
@[ext] structure SpwmState where
  h1 : List ℕ
  h2 : List ℕ
  h1_sync : ℕ
  h2_sync : ℕ
  s1_sync_captured : Bool
  s2_sync_captured : Bool
  h1_high_val_old : ℕ
  h2_high_val_old : ℕ
  time : ℕ
  tri : ℕ
  r1 : ℕ
  r2 : ℕ
  r3 : ℕ
  r4 : ℕ
  q1 : ℕ
  q2 : ℕ
  q3 : ℕ
  q4 : ℕ
  w1 : List (ℕ × ℕ)
  w2 : List (ℕ × ℕ)
  crossings : List (ℕ × ℕ × ℕ)
  cycles : ℕ
  deriving Repr

/-- One generic inner search loop
(`while(tri_time_counter < bound) { ... }`, spwm_lut.cpp lines 183–225,
237–280, 292–317, 329–355).  `cond time tri` is the crossing comparison, and
`upd` the capture branch (which always sets `tri := bound`, so in C the loop
re-checks its condition once more and exits; we return `upd st` directly).
The loop otherwise advances `time_counter` and `tri_time_counter` by one per
iteration, so `bound - tri` iterations always suffice; the fuel argument
makes the recursion structural (hence kernel-reducible). -/
def searchGo (bound : ℕ) (cond : ℕ → ℕ → Bool) (upd : SpwmState → SpwmState) :
    ℕ → SpwmState → SpwmState
  | 0, st => st
  | fuel + 1, st =>
    if st.tri < bound then
      if cond st.time st.tri then upd st
      else searchGo bound cond upd fuel
        { st with time := st.time + 1, tri := st.tri + 1 }
    else st

/-- The inner search loop, entered with exactly the fuel it can consume. -/
def searchLoop (bound : ℕ) (cond : ℕ → ℕ → Bool) (upd : SpwmState → SpwmState)
    (st : SpwmState) : SpwmState :=
  searchGo bound cond upd (bound - st.tri) st

/-- Quarter-1 comparison `s1_amplitude >= carrier_amplitude` with
`carrier_amplitude = scaling_factor - (carrier_slope * tri_time_counter)`
(spwm_lut.cpp lines 185–191). -/
def condQ1 (cq : ℕ) (sinA : ℕ → ℤ) (time tri : ℕ) : Bool :=
  decide ((scaling_factor : ℤ) - (carrier_slope cq : ℤ) * tri ≤ sinA time)

/-- Quarter-2 comparison `s2_amplitude >= carrier_amplitude` with
`s2_amplitude = -1 * (ma_scaled * sin(omega * time_counter))`
(spwm_lut.cpp lines 238–240). -/
def condQ2 (cq : ℕ) (sinA : ℕ → ℤ) (time tri : ℕ) : Bool :=
  decide ((scaling_factor : ℤ) - (carrier_slope cq : ℤ) * tri ≤ -1 * sinA time)

/-- Quarter-3 comparison `carrier_amplitude >= s2_amplitude` with
`carrier_amplitude = (-1 * scaling_factor) + (carrier_slope *
(tri_time_counter - carrier_duration_half))` (spwm_lut.cpp lines 293–295).
The `uint32_t` difference `tri - carrier_duration_half` is taken in `ℤ`; in
quarters 3 and 4 the loop only ever runs with `tri ≥ 2*cq` (the skip-ahead
estimates add `carrier_duration_half`), so no wrap occurs. -/
def condQ3 (cq : ℕ) (sinA : ℕ → ℤ) (time tri : ℕ) : Bool :=
  decide (-1 * sinA time
    ≤ -1 * (scaling_factor : ℤ) + (carrier_slope cq : ℤ) * ((tri : ℤ) - 2 * cq))

/-- Quarter-4 comparison `carrier_amplitude >= s1_amplitude`
(spwm_lut.cpp lines 330–332). -/
def condQ4 (cq : ℕ) (sinA : ℕ → ℤ) (time tri : ℕ) : Bool :=
  decide (sinA time
    ≤ -1 * (scaling_factor : ℤ) + (carrier_slope cq : ℤ) * ((tri : ℤ) - 2 * cq))

/-- Quarter-1 capture branch (spwm_lut.cpp lines 191–219): either capture
`*h1_sync` (first s1 crossing ever) or store the duration
`time_counter - h1_high_val_old` through `p_h1_ref1`, `p_h1_ref2`,
`p_h2_ref3`, `p_h2_ref4`; in both branches `h1_high_val_old := time_counter`,
the scan jumps to the end of the quarter. -/
def captureQ1 (cq n : ℕ) (st : SpwmState) : SpwmState :=
  if st.s1_sync_captured = false then
    { st with
      h1_sync := st.time
      s1_sync_captured := true
      h1_high_val_old := st.time
      time := st.time + (cq - st.tri)
      tri := cq
      crossings := st.crossings ++ [(n, 0, st.time)] }
  else
    let result := st.time - st.h1_high_val_old
    { st with
      h1 := (st.h1.set st.r1 result).set st.r2 result
      h2 := (st.h2.set st.q3 result).set st.q4 result
      r1 := st.r1 + 1
      r2 := st.r2 - 1
      q3 := st.q3 + 1
      q4 := st.q4 - 1
      w1 := st.w1 ++ [(st.r1, result), (st.r2, result)]
      w2 := st.w2 ++ [(st.q3, result), (st.q4, result)]
      h1_high_val_old := st.time
      time := st.time + (cq - st.tri)
      tri := cq
      crossings := st.crossings ++ [(n, 0, st.time)] }

/-- Quarter-2 capture branch (spwm_lut.cpp lines 240–274): either capture
`*h2_sync` and write `*h1_sync + *h2_sync` to the midpoint (`mf-1`) and end
point (`2*mf-1`) of both tables, or store `time_counter - h2_high_val_old`
through `p_h2_ref1`, `p_h2_ref2`, `p_h1_ref3`, `p_h1_ref4`. -/
def captureQ2 (cq mf n : ℕ) (st : SpwmState) : SpwmState :=
  if st.s2_sync_captured = false then
    let result := st.h1_sync + st.time
    { st with
      h2_sync := st.time
      s2_sync_captured := true
      h1 := (st.h1.set (mf - 1) result).set (2 * mf - 1) result
      h2 := (st.h2.set (mf - 1) result).set (2 * mf - 1) result
      w1 := st.w1 ++ [(mf - 1, result), (2 * mf - 1, result)]
      w2 := st.w2 ++ [(mf - 1, result), (2 * mf - 1, result)]
      h2_high_val_old := st.time
      time := st.time + (2 * cq - st.tri)
      tri := 2 * cq
      crossings := st.crossings ++ [(n, 1, st.time)] }
  else
    let result := st.time - st.h2_high_val_old
    { st with
      h2 := (st.h2.set st.q1 result).set st.q2 result
      h1 := (st.h1.set st.r3 result).set st.r4 result
      q1 := st.q1 + 1
      q2 := st.q2 - 1
      r3 := st.r3 + 1
      r4 := st.r4 - 1
      w2 := st.w2 ++ [(st.q1, result), (st.q2, result)]
      w1 := st.w1 ++ [(st.r3, result), (st.r4, result)]
      h2_high_val_old := st.time
      time := st.time + (2 * cq - st.tri)
      tri := 2 * cq
      crossings := st.crossings ++ [(n, 1, st.time)] }

/-- Quarter-3 capture branch (spwm_lut.cpp lines 295–311): store
`time_counter - h2_high_val_old` through `p_h2_ref1`, `p_h2_ref2`,
`p_h1_ref3`, `p_h1_ref4` (no sync capture in this quarter). -/
def captureQ3 (cq n : ℕ) (st : SpwmState) : SpwmState :=
  let result := st.time - st.h2_high_val_old
  { st with
    h2 := (st.h2.set st.q1 result).set st.q2 result
    h1 := (st.h1.set st.r3 result).set st.r4 result
    q1 := st.q1 + 1
    q2 := st.q2 - 1
    r3 := st.r3 + 1
    r4 := st.r4 - 1
    w2 := st.w2 ++ [(st.q1, result), (st.q2, result)]
    w1 := st.w1 ++ [(st.r3, result), (st.r4, result)]
    h2_high_val_old := st.time
    time := st.time + (3 * cq - st.tri)
    tri := 3 * cq
    crossings := st.crossings ++ [(n, 2, st.time)] }

/-- Quarter-4 capture branch (spwm_lut.cpp lines 332–348): store
`time_counter - h1_high_val_old` through `p_h1_ref1`, `p_h1_ref2`,
`p_h2_ref3`, `p_h2_ref4`. -/
def captureQ4 (cq n : ℕ) (st : SpwmState) : SpwmState :=
  let result := st.time - st.h1_high_val_old
  { st with
    h1 := (st.h1.set st.r1 result).set st.r2 result
    h2 := (st.h2.set st.q3 result).set st.q4 result
    r1 := st.r1 + 1
    r2 := st.r2 - 1
    q3 := st.q3 + 1
    q4 := st.q4 - 1
    w1 := st.w1 ++ [(st.r1, result), (st.r2, result)]
    w2 := st.w2 ++ [(st.q3, result), (st.q4, result)]
    h1_high_val_old := st.time
    time := st.time + (4 * cq - st.tri)
    tri := 4 * cq
    crossings := st.crossings ++ [(n, 3, st.time)] }

/-- Skip-ahead estimate for quarter 1 (spwm_lut.cpp lines 157–174):
`tri_time_counter = (scaling_factor - s1_amplitude) / carrier_slope` with
`s1_amplitude = (int32_t)(ma_scaled * sin(omega * (n*carrier_duration +
carrier_duration_quarter)))`.  The numerator is non-negative whenever
`|sinA| ≤ ma_scaled < scaling_factor`, in which case the C `int32_t`
division equals this `ℕ` division. -/
def estQ1 (cq : ℕ) (sinA : ℕ → ℤ) (n : ℕ) : ℕ :=
  ((scaling_factor : ℤ) - sinA (n * carrier_duration cq + cq)).toNat
    / carrier_slope cq

/-- Skip-ahead estimate for quarter 2 (spwm_lut.cpp lines 232–233), with
`s2_amplitude = -1 * (ma_scaled * sin(...))` at the same boundary sample. -/
def estQ2 (cq : ℕ) (sinA : ℕ → ℤ) (n : ℕ) : ℕ :=
  ((scaling_factor : ℤ) - (-1 * sinA (n * carrier_duration cq + cq))).toNat
    / carrier_slope cq

/-- Skip-ahead estimate for quarter 3 (spwm_lut.cpp lines 287–288):
`((scaling_factor + s2_amplitude) / carrier_slope) + carrier_duration_half`
with `s2_amplitude` sampled at `n*carrier_duration + 3*cq`. -/
def estQ3 (cq : ℕ) (sinA : ℕ → ℤ) (n : ℕ) : ℕ :=
  ((scaling_factor : ℤ) + (-1 * sinA (n * carrier_duration cq + 3 * cq))).toNat
    / carrier_slope cq + 2 * cq

/-- Skip-ahead estimate for quarter 4 (spwm_lut.cpp lines 324–325). -/
def estQ4 (cq : ℕ) (sinA : ℕ → ℤ) (n : ℕ) : ℕ :=
  ((scaling_factor : ℤ) + sinA (n * carrier_duration cq + 3 * cq)).toNat
    / carrier_slope cq + 2 * cq

/-- The body of the outer `while (n < max_cycle_counts)` loop
(spwm_lut.cpp lines 142–359): one full carrier cycle, i.e. the four
quarter searches in order, each entered at its skip-ahead estimate with
`time_counter = n*carrier_duration + tri_time_counter`.  The trailing
`cycles + 1` is ghost bookkeeping for `n++` (line 359). -/
def cycleBody (cq mf : ℕ) (sinA : ℕ → ℤ) (n : ℕ) (st : SpwmState) : SpwmState :=
  let st1 := searchLoop cq (condQ1 cq sinA) (captureQ1 cq n)
    { st with time := n * carrier_duration cq + estQ1 cq sinA n
              tri := estQ1 cq sinA n }
  let st2 := searchLoop (2 * cq) (condQ2 cq sinA) (captureQ2 cq mf n)
    { st1 with time := n * carrier_duration cq + estQ2 cq sinA n
               tri := estQ2 cq sinA n }
  let st3 := searchLoop (3 * cq) (condQ3 cq sinA) (captureQ3 cq n)
    { st2 with time := n * carrier_duration cq + estQ3 cq sinA n
               tri := estQ3 cq sinA n }
  let st4 := searchLoop (4 * cq) (condQ4 cq sinA) (captureQ4 cq n)
    { st3 with time := n * carrier_duration cq + estQ4 cq sinA n
               tri := estQ4 cq sinA n }
  { st4 with cycles := st4.cycles + 1 }

/-- The state after the first `n` outer-loop iterations; the C loop runs
`n = 0, 1, ..., max_cycle_counts - 1`, so `runTo (mf/4)` is the state after
the whole loop. -/
def runTo (cq mf : ℕ) (sinA : ℕ → ℤ) (st0 : SpwmState) : ℕ → SpwmState
  | 0 => st0
  | n + 1 => cycleBody cq mf sinA n (runTo cq mf sinA st0 n)

/-- The post-loop stores (spwm_lut.cpp lines 376–383): the last remaining
OFF duration, derived analytically from the 90° symmetry, written through
`p_h1_ref1`/`p_h2_ref3` for leg 1's chain and `p_h2_ref1`/`p_h1_ref3` for
leg 2's chain. -/
def finalStores (cq mf : ℕ) (st : SpwmState) : SpwmState :=
  let result := 2 * (signal_duration_quarter cq mf - st.h1_high_val_old)
  let sta :=
    { st with
      h1 := st.h1.set st.r1 result
      h2 := st.h2.set st.q3 result
      w1 := st.w1 ++ [(st.r1, result)]
      w2 := st.w2 ++ [(st.q3, result)] }
  let result2 := 2 * (signal_duration_quarter cq mf - st.h2_high_val_old)
  { sta with
    h2 := sta.h2.set sta.q1 result2
    h1 := sta.h1.set sta.r3 result2
    w2 := sta.w2 ++ [(sta.q1, result2)]
    w1 := sta.w1 ++ [(sta.r3, result2)] }

/-- Initial state (spwm_lut.cpp lines 101–135): flags cleared, counters zero,
the eight array pointers at offsets `0`, `mf-2`, `mf`, `2*mf-2` of their
tables.  `h1`/`h2`/`h1s`/`h2s` are the caller-provided table and sync cells
(zero-initialised globals in main.cpp lines 49–52). -/
def initState (mf : ℕ) (h1 h2 : List ℕ) (h1s h2s : ℕ) : SpwmState :=
  { h1 := h1
    h2 := h2
    h1_sync := h1s
    h2_sync := h2s
    s1_sync_captured := false
    s2_sync_captured := false
    h1_high_val_old := 0
    h2_high_val_old := 0
    time := 0
    tri := 0
    r1 := 0
    r2 := mf - 2
    r3 := mf
    r4 := 2 * mf - 2
    q1 := 0
    q2 := mf - 2
    q3 := mf
    q4 := 2 * mf - 2
    w1 := []
    w2 := []
    crossings := []
    cycles := 0 }

/-- The result of `spwm_unipolar_arrays`: the two tables, the two sync cells,
the returned `signal_duration`, and the ghost instrumentation. -/
@[ext] structure SpwmOut where
  h1 : List ℕ
  h2 : List ℕ
  h1_sync : ℕ
  h2_sync : ℕ
  signal_duration : ℕ
  w1 : List (ℕ × ℕ)
  w2 : List (ℕ × ℕ)
  crossings : List (ℕ × ℕ × ℕ)
  cycles : ℕ
  deriving Repr

/-- `spwm_unipolar_arrays` (spwm_lut.cpp lines 66–386).  `cq` is the tick
count `carrier_duration_quarter` (computed in C from `signal_freq`, `mf` and
`T_STEP` by floating-point division, line 71); `sinA` is the truncated scaled
sine oracle (absorbing `ma`); `h1`/`h2`/`h1s`/`h2s` are the caller-provided
table buffers and sync cells.  The function performs no parameter
validation: it always runs `mf/4` carrier cycles, the two trailing stores,
and returns `signal_duration`. -/
def spwm_unipolar_arrays (cq mf : ℕ) (sinA : ℕ → ℤ)
    (h1 h2 : List ℕ) (h1s h2s : ℕ) : SpwmOut :=
  let stF := finalStores cq mf
    (runTo cq mf sinA (initState mf h1 h2 h1s h2s) (mf / 4))
  { h1 := stF.h1
    h2 := stF.h2
    h1_sync := stF.h1_sync
    h2_sync := stF.h2_sync
    signal_duration := signal_duration cq mf
    w1 := stF.w1
    w2 := stF.w2
    crossings := stF.crossings
    cycles := stF.cycles }

/-- All-zero table of length `2*mf`, the state of the file-scope arrays
`spwm_h1_high_table` / `spwm_h2_high_table` before synthesis
(main.cpp lines 49–50). -/
def zeroTable (mf : ℕ) : List ℕ := List.replicate (2 * mf) 0

/-! ## First-hit search and the characterization of the inner loops -/

/-- Least `x ≥ a` with `P x`, scanning with fuel. -/
def lstHitGo (P : ℕ → Bool) : ℕ → ℕ → ℕ
  | 0, a => a
  | fuel + 1, a => if P a then a else lstHitGo P fuel (a + 1)

/-- Least `x` in `[a, b)` with `P x`, or `b` (resp. `a` when `b ≤ a`) if
there is none. -/
def lstHit (P : ℕ → Bool) (a b : ℕ) : ℕ := lstHitGo P (b - a) a

theorem lstHitGo_ge (P : ℕ → Bool) (fuel : ℕ) :
    ∀ a, a ≤ lstHitGo P fuel a := by
  induction fuel with
  | zero => intro a; simp [lstHitGo]
  | succ fuel ih =>
    intro a
    simp only [lstHitGo]
    split
    · exact le_refl a
    · exact le_trans (Nat.le_succ a) (ih (a + 1))

theorem lstHitGo_le (P : ℕ → Bool) (fuel : ℕ) :
    ∀ a, lstHitGo P fuel a ≤ a + fuel := by
  induction fuel with
  | zero => intro a; simp [lstHitGo]
  | succ fuel ih =>
    intro a
    simp only [lstHitGo]
    split
    · omega
    · have := ih (a + 1); omega

theorem lstHitGo_spec (P : ℕ → Bool) (fuel : ℕ) :
    ∀ a, lstHitGo P fuel a < a + fuel → P (lstHitGo P fuel a) = true := by
  induction fuel with
  | zero => intro a h; simp [lstHitGo] at h
  | succ fuel ih =>
    intro a h
    cases hPa : P a with
    | true => simp [lstHitGo, hPa]
    | false =>
      simp only [lstHitGo, hPa, Bool.false_eq_true, if_false] at h ⊢
      exact ih (a + 1) (by omega)

theorem lstHit_ge (P : ℕ → Bool) (a b : ℕ) : a ≤ lstHit P a b :=
  lstHitGo_ge P (b - a) a

theorem lstHit_spec (P : ℕ → Bool) (a b : ℕ) (h : lstHit P a b < b) :
    P (lstHit P a b) = true := by
  rcases le_or_lt a b with hab | hab
  · exact lstHitGo_spec P (b - a) a (by unfold lstHit at h; omega)
  · have := lstHit_ge P a b; omega

theorem lstHit_self (P : ℕ → Bool) (a b : ℕ) (hP : P a = true) (hab : a < b) :
    lstHit P a b = a := by
  unfold lstHit
  have : b - a = (b - a - 1) + 1 := by omega
  rw [this]
  simp [lstHitGo, hP]

theorem lstHit_shift (P : ℕ → Bool) (a b : ℕ) (hP : P a = false) (hab : a < b) :
    lstHit P a b = lstHit P (a + 1) b := by
  unfold lstHit
  have h1 : b - a = (b - (a + 1)) + 1 := by omega
  rw [h1]
  simp [lstHitGo, hP]

/-- Characterization of the inner loop when a crossing is found: the loop,
entered with `time = base + tri`, performs the capture branch exactly at the
first tick of `[tri, bound)` satisfying the comparison. -/
theorem searchGo_eq_of_found (bound : ℕ) (cond : ℕ → ℕ → Bool)
    (upd : SpwmState → SpwmState) (base : ℕ) (fuel : ℕ) :
    ∀ st : SpwmState, st.time = base + st.tri → fuel = bound - st.tri →
      lstHit (fun x => cond (base + x) x) st.tri bound < bound →
      searchGo bound cond upd fuel st
        = upd { st with
            time := base + lstHit (fun x => cond (base + x) x) st.tri bound
            tri := lstHit (fun x => cond (base + x) x) st.tri bound } := by
  induction fuel with
  | zero =>
    intro st ht hfuel hf
    exfalso
    have hba : bound ≤ st.tri := by omega
    have : lstHit (fun x => cond (base + x) x) st.tri bound = st.tri := by
      unfold lstHit
      have : bound - st.tri = 0 := by omega
      rw [this]; rfl
    omega
  | succ fuel ih =>
    intro st ht hfuel hf
    have htri : st.tri < bound := by omega
    simp only [searchGo]
    rw [if_pos htri]
    cases hc : cond st.time st.tri with
    | true =>
      have hP : (fun x => cond (base + x) x) st.tri = true := by
        simp only []
        rw [← ht]; exact hc
      have hL : lstHit (fun x => cond (base + x) x) st.tri bound = st.tri :=
        lstHit_self _ _ _ hP htri
      rw [if_pos rfl, hL]
      congr 1
      ext <;> simp [ht]
    | false =>
      have hP : (fun x => cond (base + x) x) st.tri = false := by
        simp only []
        rw [← ht]; exact hc
      have hL := lstHit_shift (fun x => cond (base + x) x) st.tri bound hP htri
      simp only [Bool.false_eq_true, if_false]
      rw [hL] at hf ⊢
      exact ih { st with time := st.time + 1, tri := st.tri + 1 }
        (by simp [ht]; omega) (by simp; omega) hf

theorem searchLoop_eq_of_found (bound : ℕ) (cond : ℕ → ℕ → Bool)
    (upd : SpwmState → SpwmState) (base : ℕ) (st : SpwmState)
    (ht : st.time = base + st.tri)
    (hf : lstHit (fun x => cond (base + x) x) st.tri bound < bound) :
    searchLoop bound cond upd st
      = upd { st with
          time := base + lstHit (fun x => cond (base + x) x) st.tri bound
          tri := lstHit (fun x => cond (base + x) x) st.tri bound } :=
  searchGo_eq_of_found bound cond upd base (bound - st.tri) st ht rfl hf

/-! ## Crossing ticks

The comparison of quarter `q` of carrier cycle `n`, as a function of
`tri_time_counter` alone (inside each quarter the loop maintains
`time_counter = n * carrier_duration + tri_time_counter`). -/

/-- Quarter-1 predicate of cycle `n`. -/
def PQ1 (cq : ℕ) (sinA : ℕ → ℤ) (n : ℕ) : ℕ → Bool :=
  fun x => condQ1 cq sinA (n * carrier_duration cq + x) x

/-- Quarter-2 predicate of cycle `n`. -/
def PQ2 (cq : ℕ) (sinA : ℕ → ℤ) (n : ℕ) : ℕ → Bool :=
  fun x => condQ2 cq sinA (n * carrier_duration cq + x) x

/-- Quarter-3 predicate of cycle `n`. -/
def PQ3 (cq : ℕ) (sinA : ℕ → ℤ) (n : ℕ) : ℕ → Bool :=
  fun x => condQ3 cq sinA (n * carrier_duration cq + x) x

/-- Quarter-4 predicate of cycle `n`. -/
def PQ4 (cq : ℕ) (sinA : ℕ → ℤ) (n : ℕ) : ℕ → Bool :=
  fun x => condQ4 cq sinA (n * carrier_duration cq + x) x

/-- `tri_time_counter` at the quarter-1 crossing of cycle `n`. -/
def hitQ1 (cq : ℕ) (sinA : ℕ → ℤ) (n : ℕ) : ℕ :=
  lstHit (PQ1 cq sinA n) (estQ1 cq sinA n) cq

/-- `tri_time_counter` at the quarter-2 crossing of cycle `n`. -/
def hitQ2 (cq : ℕ) (sinA : ℕ → ℤ) (n : ℕ) : ℕ :=
  lstHit (PQ2 cq sinA n) (estQ2 cq sinA n) (2 * cq)

/-- `tri_time_counter` at the quarter-3 crossing of cycle `n`. -/
def hitQ3 (cq : ℕ) (sinA : ℕ → ℤ) (n : ℕ) : ℕ :=
  lstHit (PQ3 cq sinA n) (estQ3 cq sinA n) (3 * cq)

/-- `tri_time_counter` at the quarter-4 crossing of cycle `n`. -/
def hitQ4 (cq : ℕ) (sinA : ℕ → ℤ) (n : ℕ) : ℕ :=
  lstHit (PQ4 cq sinA n) (estQ4 cq sinA n) (4 * cq)

/-- `time_counter` at the quarter-1 crossing of cycle `n` (an s1 crossing). -/
def T1 (cq : ℕ) (sinA : ℕ → ℤ) (n : ℕ) : ℕ :=
  n * carrier_duration cq + hitQ1 cq sinA n

/-- `time_counter` at the quarter-2 crossing of cycle `n` (an s2 crossing). -/
def T2 (cq : ℕ) (sinA : ℕ → ℤ) (n : ℕ) : ℕ :=
  n * carrier_duration cq + hitQ2 cq sinA n

/-- `time_counter` at the quarter-3 crossing of cycle `n` (an s2 crossing). -/
def T3 (cq : ℕ) (sinA : ℕ → ℤ) (n : ℕ) : ℕ :=
  n * carrier_duration cq + hitQ3 cq sinA n

/-- `time_counter` at the quarter-4 crossing of cycle `n` (an s1 crossing). -/
def T4 (cq : ℕ) (sinA : ℕ → ℤ) (n : ℕ) : ℕ :=
  n * carrier_duration cq + hitQ4 cq sinA n

/-- Every quarter search of cycle `n` finds its crossing inside its quarter.
For the real (truncated, scaled) sine with `0 < ma < 1` this holds for every
cycle; here it is a decidable hypothesis on the oracle. -/
def foundAll (cq : ℕ) (sinA : ℕ → ℤ) (n : ℕ) : Prop :=
  hitQ1 cq sinA n < cq ∧ hitQ2 cq sinA n < 2 * cq ∧
  hitQ3 cq sinA n < 3 * cq ∧ hitQ4 cq sinA n < 4 * cq

instance (cq : ℕ) (sinA : ℕ → ℤ) (n : ℕ) : Decidable (foundAll cq sinA n) := by
  unfold foundAll; infer_instance

/-- Explicit form of one outer-loop iteration in the steady state (both sync
flags already captured, every quarter search successful): quarter 1 stores
`T1 n - h1_high_val_old` at `r1`/`r2` (and mirrors into table 2), quarter 2
stores `T2 n - h2_high_val_old` at `r3`/`r4`, quarter 3 stores `T3 n - T2 n`,
quarter 4 stores `T4 n - T1 n`; each pointer pair advances by two. -/
theorem cycleBody_char (cq mf : ℕ) (sinA : ℕ → ℤ) (n : ℕ) (st : SpwmState)
    (hs1 : st.s1_sync_captured = true) (hs2 : st.s2_sync_captured = true)
    (hf : foundAll cq sinA n) :
    cycleBody cq mf sinA n st = { st with
      h1 := ((((((((st.h1.set st.r1 (T1 cq sinA n - st.h1_high_val_old)).set
        st.r2 (T1 cq sinA n - st.h1_high_val_old)).set
        st.r3 (T2 cq sinA n - st.h2_high_val_old)).set
        st.r4 (T2 cq sinA n - st.h2_high_val_old)).set
        (st.r3 + 1) (T3 cq sinA n - T2 cq sinA n)).set
        (st.r4 - 1) (T3 cq sinA n - T2 cq sinA n)).set
        (st.r1 + 1) (T4 cq sinA n - T1 cq sinA n)).set
        (st.r2 - 1) (T4 cq sinA n - T1 cq sinA n))
      h2 := ((((((((st.h2.set st.q3 (T1 cq sinA n - st.h1_high_val_old)).set
        st.q4 (T1 cq sinA n - st.h1_high_val_old)).set
        st.q1 (T2 cq sinA n - st.h2_high_val_old)).set
        st.q2 (T2 cq sinA n - st.h2_high_val_old)).set
        (st.q1 + 1) (T3 cq sinA n - T2 cq sinA n)).set
        (st.q2 - 1) (T3 cq sinA n - T2 cq sinA n)).set
        (st.q3 + 1) (T4 cq sinA n - T1 cq sinA n)).set
        (st.q4 - 1) (T4 cq sinA n - T1 cq sinA n))
      h1_high_val_old := T4 cq sinA n
      h2_high_val_old := T3 cq sinA n
      time := n * carrier_duration cq + 4 * cq
      tri := 4 * cq
      r1 := st.r1 + 2
      r2 := st.r2 - 2
      r3 := st.r3 + 2
      r4 := st.r4 - 2
      q1 := st.q1 + 2
      q2 := st.q2 - 2
      q3 := st.q3 + 2
      q4 := st.q4 - 2
      w1 := st.w1 ++ [(st.r1, T1 cq sinA n - st.h1_high_val_old),
        (st.r2, T1 cq sinA n - st.h1_high_val_old),
        (st.r3, T2 cq sinA n - st.h2_high_val_old),
        (st.r4, T2 cq sinA n - st.h2_high_val_old),
        (st.r3 + 1, T3 cq sinA n - T2 cq sinA n),
        (st.r4 - 1, T3 cq sinA n - T2 cq sinA n),
        (st.r1 + 1, T4 cq sinA n - T1 cq sinA n),
        (st.r2 - 1, T4 cq sinA n - T1 cq sinA n)]
      w2 := st.w2 ++ [(st.q3, T1 cq sinA n - st.h1_high_val_old),
        (st.q4, T1 cq sinA n - st.h1_high_val_old),
        (st.q1, T2 cq sinA n - st.h2_high_val_old),
        (st.q2, T2 cq sinA n - st.h2_high_val_old),
        (st.q1 + 1, T3 cq sinA n - T2 cq sinA n),
        (st.q2 - 1, T3 cq sinA n - T2 cq sinA n),
        (st.q3 + 1, T4 cq sinA n - T1 cq sinA n),
        (st.q4 - 1, T4 cq sinA n - T1 cq sinA n)]
      crossings := st.crossings ++ [(n, 0, T1 cq sinA n), (n, 1, T2 cq sinA n),
        (n, 2, T3 cq sinA n), (n, 3, T4 cq sinA n)]
      cycles := st.cycles + 1 } := by
  obtain ⟨hf1, hf2, hf3, hf4⟩ := hf
  have k1 : hitQ1 cq sinA n ≤ cq := le_of_lt hf1
  have k2 : hitQ2 cq sinA n ≤ 2 * cq := le_of_lt hf2
  have k3 : hitQ3 cq sinA n ≤ 3 * cq := le_of_lt hf3
  have k4 : hitQ4 cq sinA n ≤ 4 * cq := le_of_lt hf4
  have e1 : ∀ stx : SpwmState,
      searchLoop cq (condQ1 cq sinA) (captureQ1 cq n)
        { stx with time := n * carrier_duration cq + estQ1 cq sinA n
                   tri := estQ1 cq sinA n }
      = captureQ1 cq n
        { stx with time := n * carrier_duration cq + hitQ1 cq sinA n
                   tri := hitQ1 cq sinA n } := fun stx =>
    searchLoop_eq_of_found cq (condQ1 cq sinA) (captureQ1 cq n)
      (n * carrier_duration cq) _ rfl (by exact hf1)
  have e2 : ∀ stx : SpwmState,
      searchLoop (2 * cq) (condQ2 cq sinA) (captureQ2 cq mf n)
        { stx with time := n * carrier_duration cq + estQ2 cq sinA n
                   tri := estQ2 cq sinA n }
      = captureQ2 cq mf n
        { stx with time := n * carrier_duration cq + hitQ2 cq sinA n
                   tri := hitQ2 cq sinA n } := fun stx =>
    searchLoop_eq_of_found (2 * cq) (condQ2 cq sinA) (captureQ2 cq mf n)
      (n * carrier_duration cq) _ rfl (by exact hf2)
  have e3 : ∀ stx : SpwmState,
      searchLoop (3 * cq) (condQ3 cq sinA) (captureQ3 cq n)
        { stx with time := n * carrier_duration cq + estQ3 cq sinA n
                   tri := estQ3 cq sinA n }
      = captureQ3 cq n
        { stx with time := n * carrier_duration cq + hitQ3 cq sinA n
                   tri := hitQ3 cq sinA n } := fun stx =>
    searchLoop_eq_of_found (3 * cq) (condQ3 cq sinA) (captureQ3 cq n)
      (n * carrier_duration cq) _ rfl (by exact hf3)
  have e4 : ∀ stx : SpwmState,
      searchLoop (4 * cq) (condQ4 cq sinA) (captureQ4 cq n)
        { stx with time := n * carrier_duration cq + estQ4 cq sinA n
                   tri := estQ4 cq sinA n }
      = captureQ4 cq n
        { stx with time := n * carrier_duration cq + hitQ4 cq sinA n
                   tri := hitQ4 cq sinA n } := fun stx =>
    searchLoop_eq_of_found (4 * cq) (condQ4 cq sinA) (captureQ4 cq n)
      (n * carrier_duration cq) _ rfl (by exact hf4)
  simp only [cycleBody]
  rw [e1, e2, e3, e4]
  simp only [captureQ1, captureQ2, captureQ3, captureQ4, hs1, hs2,
    Bool.true_eq_false, if_false, ite_false]
  apply SpwmState.ext <;>
    simp only [T1, T2, T3, T4, List.append_assoc, List.cons_append,
      List.nil_append] <;>
    first
      | rfl
      | omega

/-- Explicit form of the first outer-loop iteration (cycle 0, both sync flags
still clear): quarter 1 captures `*h1_sync = T1 0`, quarter 2 captures
`*h2_sync = T2 0` and writes `T1 0 + T2 0` to the midpoint and end point of
both tables, quarters 3 and 4 store the first two durations. -/
theorem cycleBody_char_zero (cq mf : ℕ) (sinA : ℕ → ℤ) (st : SpwmState)
    (hs1 : st.s1_sync_captured = false) (hs2 : st.s2_sync_captured = false)
    (hf : foundAll cq sinA 0) :
    cycleBody cq mf sinA 0 st = { st with
      h1 := ((((((st.h1.set (mf - 1) (T1 cq sinA 0 + T2 cq sinA 0)).set
        (2 * mf - 1) (T1 cq sinA 0 + T2 cq sinA 0)).set
        st.r3 (T3 cq sinA 0 - T2 cq sinA 0)).set
        st.r4 (T3 cq sinA 0 - T2 cq sinA 0)).set
        st.r1 (T4 cq sinA 0 - T1 cq sinA 0)).set
        st.r2 (T4 cq sinA 0 - T1 cq sinA 0))
      h2 := ((((((st.h2.set (mf - 1) (T1 cq sinA 0 + T2 cq sinA 0)).set
        (2 * mf - 1) (T1 cq sinA 0 + T2 cq sinA 0)).set
        st.q1 (T3 cq sinA 0 - T2 cq sinA 0)).set
        st.q2 (T3 cq sinA 0 - T2 cq sinA 0)).set
        st.q3 (T4 cq sinA 0 - T1 cq sinA 0)).set
        st.q4 (T4 cq sinA 0 - T1 cq sinA 0))
      h1_sync := T1 cq sinA 0
      h2_sync := T2 cq sinA 0
      s1_sync_captured := true
      s2_sync_captured := true
      h1_high_val_old := T4 cq sinA 0
      h2_high_val_old := T3 cq sinA 0
      time := 4 * cq
      tri := 4 * cq
      r1 := st.r1 + 1
      r2 := st.r2 - 1
      r3 := st.r3 + 1
      r4 := st.r4 - 1
      q1 := st.q1 + 1
      q2 := st.q2 - 1
      q3 := st.q3 + 1
      q4 := st.q4 - 1
      w1 := st.w1 ++ [(mf - 1, T1 cq sinA 0 + T2 cq sinA 0),
        (2 * mf - 1, T1 cq sinA 0 + T2 cq sinA 0),
        (st.r3, T3 cq sinA 0 - T2 cq sinA 0),
        (st.r4, T3 cq sinA 0 - T2 cq sinA 0),
        (st.r1, T4 cq sinA 0 - T1 cq sinA 0),
        (st.r2, T4 cq sinA 0 - T1 cq sinA 0)]
      w2 := st.w2 ++ [(mf - 1, T1 cq sinA 0 + T2 cq sinA 0),
        (2 * mf - 1, T1 cq sinA 0 + T2 cq sinA 0),
        (st.q1, T3 cq sinA 0 - T2 cq sinA 0),
        (st.q2, T3 cq sinA 0 - T2 cq sinA 0),
        (st.q3, T4 cq sinA 0 - T1 cq sinA 0),
        (st.q4, T4 cq sinA 0 - T1 cq sinA 0)]
      crossings := st.crossings ++ [(0, 0, T1 cq sinA 0), (0, 1, T2 cq sinA 0),
        (0, 2, T3 cq sinA 0), (0, 3, T4 cq sinA 0)]
      cycles := st.cycles + 1 } := by
  obtain ⟨hf1, hf2, hf3, hf4⟩ := hf
  have k1 : hitQ1 cq sinA 0 ≤ cq := le_of_lt hf1
  have k2 : hitQ2 cq sinA 0 ≤ 2 * cq := le_of_lt hf2
  have k3 : hitQ3 cq sinA 0 ≤ 3 * cq := le_of_lt hf3
  have k4 : hitQ4 cq sinA 0 ≤ 4 * cq := le_of_lt hf4
  have e1 : ∀ stx : SpwmState,
      searchLoop cq (condQ1 cq sinA) (captureQ1 cq 0)
        { stx with time := 0 * carrier_duration cq + estQ1 cq sinA 0
                   tri := estQ1 cq sinA 0 }
      = captureQ1 cq 0
        { stx with time := 0 * carrier_duration cq + hitQ1 cq sinA 0
                   tri := hitQ1 cq sinA 0 } := fun stx =>
    searchLoop_eq_of_found cq (condQ1 cq sinA) (captureQ1 cq 0)
      (0 * carrier_duration cq) _ rfl (by exact hf1)
  have e2 : ∀ stx : SpwmState,
      searchLoop (2 * cq) (condQ2 cq sinA) (captureQ2 cq mf 0)
        { stx with time := 0 * carrier_duration cq + estQ2 cq sinA 0
                   tri := estQ2 cq sinA 0 }
      = captureQ2 cq mf 0
        { stx with time := 0 * carrier_duration cq + hitQ2 cq sinA 0
                   tri := hitQ2 cq sinA 0 } := fun stx =>
    searchLoop_eq_of_found (2 * cq) (condQ2 cq sinA) (captureQ2 cq mf 0)
      (0 * carrier_duration cq) _ rfl (by exact hf2)
  have e3 : ∀ stx : SpwmState,
      searchLoop (3 * cq) (condQ3 cq sinA) (captureQ3 cq 0)
        { stx with time := 0 * carrier_duration cq + estQ3 cq sinA 0
                   tri := estQ3 cq sinA 0 }
      = captureQ3 cq 0
        { stx with time := 0 * carrier_duration cq + hitQ3 cq sinA 0
                   tri := hitQ3 cq sinA 0 } := fun stx =>
    searchLoop_eq_of_found (3 * cq) (condQ3 cq sinA) (captureQ3 cq 0)
      (0 * carrier_duration cq) _ rfl (by exact hf3)
  have e4 : ∀ stx : SpwmState,
      searchLoop (4 * cq) (condQ4 cq sinA) (captureQ4 cq 0)
        { stx with time := 0 * carrier_duration cq + estQ4 cq sinA 0
                   tri := estQ4 cq sinA 0 }
      = captureQ4 cq 0
        { stx with time := 0 * carrier_duration cq + hitQ4 cq sinA 0
                   tri := hitQ4 cq sinA 0 } := fun stx =>
    searchLoop_eq_of_found (4 * cq) (condQ4 cq sinA) (captureQ4 cq 0)
      (0 * carrier_duration cq) _ rfl (by exact hf4)
  simp only [cycleBody]
  rw [e1, e2, e3, e4]
  simp only [captureQ1, captureQ2, captureQ3, captureQ4, hs1, hs2,
    eq_self_iff_true, if_true, ite_true]
  apply SpwmState.ext <;>
    simp only [T1, T2, T3, T4, List.append_assoc, List.cons_append,
      List.nil_append] <;>
    first
      | rfl
      | omega

/-! ## The abstract run: explicit write lists -/

/-- Replay a list of (index, value) stores over a table. -/
def applyW (w : List (ℕ × ℕ)) (l : List ℕ) : List ℕ :=
  w.foldl (fun l p => l.set p.1 p.2) l

theorem applyW_nil (l : List ℕ) : applyW [] l = l := rfl

theorem applyW_cons (p : ℕ × ℕ) (w : List (ℕ × ℕ)) (l : List ℕ) :
    applyW (p :: w) l = applyW w (l.set p.1 p.2) := rfl

theorem applyW_append (w w' : List (ℕ × ℕ)) (l : List ℕ) :
    applyW (w ++ w') l = applyW w' (applyW w l) :=
  List.foldl_append ..

theorem applyW_length (w : List (ℕ × ℕ)) :
    ∀ l : List ℕ, (applyW w l).length = l.length := by
  induction w with
  | nil => intro l; rfl
  | cons p w ih =>
    intro l
    rw [applyW_cons, ih, List.length_set]

/-- The stores into table 1 performed during carrier cycle `n`, with indices
written in the pointer-arithmetic form produced by `cycleBody_char` /
`cycleBody_char_zero` at the start-of-cycle pointer positions (`r1 = 2n-1`,
`r2 = mf-2-(2n-1)`, `r3 = mf+(2n-1)`, `r4 = 2mf-2-(2n-1)` for `n ≥ 1`; the
initial positions for `n = 0`). -/
def block1 (cq mf : ℕ) (sinA : ℕ → ℤ) (n : ℕ) : List (ℕ × ℕ) :=
  if n = 0 then
    [(mf - 1, T1 cq sinA 0 + T2 cq sinA 0),
     (2 * mf - 1, T1 cq sinA 0 + T2 cq sinA 0),
     (mf, T3 cq sinA 0 - T2 cq sinA 0),
     (2 * mf - 2, T3 cq sinA 0 - T2 cq sinA 0),
     (0, T4 cq sinA 0 - T1 cq sinA 0),
     (mf - 2, T4 cq sinA 0 - T1 cq sinA 0)]
  else
    [(2 * n - 1, T1 cq sinA n - T4 cq sinA (n - 1)),
     (mf - 2 - (2 * n - 1), T1 cq sinA n - T4 cq sinA (n - 1)),
     (mf + (2 * n - 1), T2 cq sinA n - T3 cq sinA (n - 1)),
     (2 * mf - 2 - (2 * n - 1), T2 cq sinA n - T3 cq sinA (n - 1)),
     (mf + (2 * n - 1) + 1, T3 cq sinA n - T2 cq sinA n),
     (2 * mf - 2 - (2 * n - 1) - 1, T3 cq sinA n - T2 cq sinA n),
     (2 * n - 1 + 1, T4 cq sinA n - T1 cq sinA n),
     (mf - 2 - (2 * n - 1) - 1, T4 cq sinA n - T1 cq sinA n)]

/-- The stores into table 2 performed during carrier cycle `n`. -/
def block2 (cq mf : ℕ) (sinA : ℕ → ℤ) (n : ℕ) : List (ℕ × ℕ) :=
  if n = 0 then
    [(mf - 1, T1 cq sinA 0 + T2 cq sinA 0),
     (2 * mf - 1, T1 cq sinA 0 + T2 cq sinA 0),
     (0, T3 cq sinA 0 - T2 cq sinA 0),
     (mf - 2, T3 cq sinA 0 - T2 cq sinA 0),
     (mf, T4 cq sinA 0 - T1 cq sinA 0),
     (2 * mf - 2, T4 cq sinA 0 - T1 cq sinA 0)]
  else
    [(mf + (2 * n - 1), T1 cq sinA n - T4 cq sinA (n - 1)),
     (2 * mf - 2 - (2 * n - 1), T1 cq sinA n - T4 cq sinA (n - 1)),
     (2 * n - 1, T2 cq sinA n - T3 cq sinA (n - 1)),
     (mf - 2 - (2 * n - 1), T2 cq sinA n - T3 cq sinA (n - 1)),
     (2 * n - 1 + 1, T3 cq sinA n - T2 cq sinA n),
     (mf - 2 - (2 * n - 1) - 1, T3 cq sinA n - T2 cq sinA n),
     (mf + (2 * n - 1) + 1, T4 cq sinA n - T1 cq sinA n),
     (2 * mf - 2 - (2 * n - 1) - 1, T4 cq sinA n - T1 cq sinA n)]

/-- All stores into table 1 during the first `n` carrier cycles. -/
def W1 (cq mf : ℕ) (sinA : ℕ → ℤ) : ℕ → List (ℕ × ℕ)
  | 0 => []
  | n + 1 => W1 cq mf sinA n ++ block1 cq mf sinA n

/-- All stores into table 2 during the first `n` carrier cycles. -/
def W2 (cq mf : ℕ) (sinA : ℕ → ℤ) : ℕ → List (ℕ × ℕ)
  | 0 => []
  | n + 1 => W2 cq mf sinA n ++ block2 cq mf sinA n

/-- The captured crossings `(cycle, quarter, time_counter)` of the first `n`
carrier cycles. -/
def crossingsTo (cq : ℕ) (sinA : ℕ → ℤ) : ℕ → List (ℕ × ℕ × ℕ)
  | 0 => []
  | n + 1 => crossingsTo cq sinA n ++
      [(n, 0, T1 cq sinA n), (n, 1, T2 cq sinA n),
       (n, 2, T3 cq sinA n), (n, 3, T4 cq sinA n)]

/-- The abstract state after `n ≥ 1` full carrier cycles of a successful run
started on tables `l1`, `l2`. -/
def AbsSt (cq mf : ℕ) (sinA : ℕ → ℤ) (l1 l2 : List ℕ) (n : ℕ) : SpwmState :=
  { h1 := applyW (W1 cq mf sinA n) l1
    h2 := applyW (W2 cq mf sinA n) l2
    h1_sync := T1 cq sinA 0
    h2_sync := T2 cq sinA 0
    s1_sync_captured := true
    s2_sync_captured := true
    h1_high_val_old := T4 cq sinA (n - 1)
    h2_high_val_old := T3 cq sinA (n - 1)
    time := n * carrier_duration cq
    tri := 4 * cq
    r1 := 2 * n - 1
    r2 := mf - 2 - (2 * n - 1)
    r3 := mf + (2 * n - 1)
    r4 := 2 * mf - 2 - (2 * n - 1)
    q1 := 2 * n - 1
    q2 := mf - 2 - (2 * n - 1)
    q3 := mf + (2 * n - 1)
    q4 := 2 * mf - 2 - (2 * n - 1)
    w1 := W1 cq mf sinA n
    w2 := W2 cq mf sinA n
    crossings := crossingsTo cq sinA n
    cycles := n }

/-- Invariant of the outer loop: after `n ≥ 1` successful carrier cycles the
concrete state is the abstract one. -/
theorem runTo_eq_absSt (cq mf : ℕ) (sinA : ℕ → ℤ) (l1 l2 : List ℕ)
    (h1s h2s : ℕ) (N : ℕ) (hfe : ∀ k, k < N → foundAll cq sinA k) :
    ∀ n, 1 ≤ n → n ≤ N →
      runTo cq mf sinA (initState mf l1 l2 h1s h2s) n
        = AbsSt cq mf sinA l1 l2 n := by
  intro n
  induction n with
  | zero => intro h; omega
  | succ n ih =>
    intro _ hle
    rcases Nat.eq_zero_or_pos n with hn0 | hn1
    · subst hn0
      show cycleBody cq mf sinA 0 (initState mf l1 l2 h1s h2s) = _
      rw [cycleBody_char_zero cq mf sinA _ rfl rfl (hfe 0 (by omega))]
      apply SpwmState.ext <;>
        simp only [initState, AbsSt, W1, W2, block1, block2, crossingsTo,
          applyW_append, applyW_cons, applyW_nil, if_pos rfl,
          List.append_assoc, List.cons_append, List.nil_append,
          List.append_nil, carrier_duration] <;>
        first
          | rfl
          | omega
    · have hn0 : ¬ n = 0 := by omega
      show cycleBody cq mf sinA n
        (runTo cq mf sinA (initState mf l1 l2 h1s h2s) n) = _
      rw [ih (by omega) (by omega)]
      rw [cycleBody_char cq mf sinA n _ rfl rfl (hfe n (by omega))]
      apply SpwmState.ext <;>
        simp only [AbsSt, W1, W2, block1, block2, crossingsTo,
          applyW_append, applyW_cons, applyW_nil, if_neg hn0,
          List.append_assoc, List.cons_append, List.nil_append,
          List.append_nil, carrier_duration, Nat.add_sub_cancel] <;>
        first
          | rfl
          | omega
          | ring

/-- The two post-loop stores into table 1 (spwm_lut.cpp lines 376–383), at
the final pointer positions `r1 = 2N-1`, `r3 = mf+(2N-1)` where `N = mf/4`. -/
def fin1 (cq mf : ℕ) (sinA : ℕ → ℤ) (N : ℕ) : List (ℕ × ℕ) :=
  [(2 * N - 1, 2 * (signal_duration_quarter cq mf - T4 cq sinA (N - 1))),
   (mf + (2 * N - 1), 2 * (signal_duration_quarter cq mf - T3 cq sinA (N - 1)))]

/-- The two post-loop stores into table 2, at `q3 = mf+(2N-1)`, `q1 = 2N-1`. -/
def fin2 (cq mf : ℕ) (sinA : ℕ → ℤ) (N : ℕ) : List (ℕ × ℕ) :=
  [(mf + (2 * N - 1), 2 * (signal_duration_quarter cq mf - T4 cq sinA (N - 1))),
   (2 * N - 1, 2 * (signal_duration_quarter cq mf - T3 cq sinA (N - 1)))]

/-- Every store into table 1 performed by a successful run. -/
def W1full (cq mf : ℕ) (sinA : ℕ → ℤ) : List (ℕ × ℕ) :=
  W1 cq mf sinA (mf / 4) ++ fin1 cq mf sinA (mf / 4)

/-- Every store into table 2 performed by a successful run. -/
def W2full (cq mf : ℕ) (sinA : ℕ → ℤ) : List (ℕ × ℕ) :=
  W2 cq mf sinA (mf / 4) ++ fin2 cq mf sinA (mf / 4)

/-- End-to-end characterization of `spwm_unipolar_arrays` for a successful
run: the tables are the initial tables overwritten by the explicit store
lists `W1full`/`W2full`, the sync offsets are the cycle-0 crossings of the
two legs, and the returned duration is `signal_duration`. -/
theorem spwm_out_char (cq mf : ℕ) (sinA : ℕ → ℤ) (l1 l2 : List ℕ)
    (h1s h2s : ℕ) (hN : 1 ≤ mf / 4)
    (hfe : ∀ k, k < mf / 4 → foundAll cq sinA k) :
    spwm_unipolar_arrays cq mf sinA l1 l2 h1s h2s =
      { h1 := applyW (W1full cq mf sinA) l1
        h2 := applyW (W2full cq mf sinA) l2
        h1_sync := T1 cq sinA 0
        h2_sync := T2 cq sinA 0
        signal_duration := signal_duration cq mf
        w1 := W1full cq mf sinA
        w2 := W2full cq mf sinA
        crossings := crossingsTo cq sinA (mf / 4)
        cycles := mf / 4 } := by
  unfold spwm_unipolar_arrays
  rw [runTo_eq_absSt cq mf sinA l1 l2 h1s h2s (mf / 4) hfe (mf / 4) hN
    (le_refl _)]
  apply SpwmOut.ext <;>
    simp only [finalStores, AbsSt, W1full, W2full, fin1, fin2,
      applyW_append, applyW_cons, applyW_nil,
      List.append_assoc, List.cons_append, List.nil_append]

/-! ## Valid configurations -/

/-- A valid configuration and a successful run.  `4 ≤ mf` and `mf % 4 = 0`
are the claim's "positive multiple of 4"; `0 < cq ≤ scaling_factor` holds for
every positive signal frequency (for 50 Hz, `cq = 1953`) and makes
`carrier_slope` positive; `amp_lt` is `|sin| ≤ 1` with `ma < 1` after
truncation; `sgn1`/`sgn3` say the sampled sine is non-negative at the
quarter-boundary estimate points of the first signal quarter (true for the
real sine since those angles lie in `[0, π/2]`); `found` says every quarter
search captures a crossing inside its quarter. -/
structure GoodRun (cq mf : ℕ) (sinA : ℕ → ℤ) : Prop where
  mf_ge : 4 ≤ mf
  mf_mod : mf % 4 = 0
  cq_pos : 0 < cq
  cq_le : cq ≤ scaling_factor
  amp_lt : ∀ t, (sinA t).natAbs < scaling_factor
  sgn1 : ∀ n, n < mf / 4 → 0 ≤ sinA (n * carrier_duration cq + cq)
  sgn3 : ∀ n, n < mf / 4 → 0 ≤ sinA (n * carrier_duration cq + 3 * cq)
  found : ∀ n, n < mf / 4 → foundAll cq sinA n

theorem carrier_slope_pos (cq : ℕ) (h0 : 0 < cq) (h1 : cq ≤ scaling_factor) :
    0 < carrier_slope cq :=
  Nat.div_pos h1 h0

theorem cq_mul_slope_le (cq : ℕ) : cq * carrier_slope cq ≤ scaling_factor := by
  rw [mul_comm]
  exact Nat.div_mul_le_self _ _

/-- With a non-negative boundary sample, the quarter-2 estimate lands at or
after the start of quarter 2. -/
theorem estQ2_ge (cq : ℕ) (sinA : ℕ → ℤ) (n : ℕ) (h0 : 0 < cq)
    (h1 : cq ≤ scaling_factor)
    (hs : 0 ≤ sinA (n * carrier_duration cq + cq)) :
    cq ≤ estQ2 cq sinA n := by
  unfold estQ2
  rw [Nat.le_div_iff_mul_le (carrier_slope_pos cq h0 h1)]
  have := cq_mul_slope_le cq
  omega

/-- With a non-negative boundary sample, the quarter-4 estimate lands at or
after the start of quarter 4. -/
theorem estQ4_ge (cq : ℕ) (sinA : ℕ → ℤ) (n : ℕ) (h0 : 0 < cq)
    (h1 : cq ≤ scaling_factor)
    (hs : 0 ≤ sinA (n * carrier_duration cq + 3 * cq)) :
    3 * cq ≤ estQ4 cq sinA n := by
  unfold estQ4
  have hdiv : cq ≤ ((scaling_factor : ℤ)
      + sinA (n * carrier_duration cq + 3 * cq)).toNat / carrier_slope cq := by
    rw [Nat.le_div_iff_mul_le (carrier_slope_pos cq h0 h1)]
    have := cq_mul_slope_le cq
    omega
  omega

/-- Each captured crossing lies inside its quarter's tick window. -/
theorem T_windows (cq mf : ℕ) (sinA : ℕ → ℤ) (h : GoodRun cq mf sinA)
    (n : ℕ) (hn : n < mf / 4) :
    (n * carrier_duration cq ≤ T1 cq sinA n ∧
      T1 cq sinA n < n * carrier_duration cq + cq) ∧
    (n * carrier_duration cq + cq ≤ T2 cq sinA n ∧
      T2 cq sinA n < n * carrier_duration cq + 2 * cq) ∧
    (n * carrier_duration cq + 2 * cq ≤ T3 cq sinA n ∧
      T3 cq sinA n < n * carrier_duration cq + 3 * cq) ∧
    (n * carrier_duration cq + 3 * cq ≤ T4 cq sinA n ∧
      T4 cq sinA n < n * carrier_duration cq + 4 * cq) := by
  obtain ⟨hf1, hf2, hf3, hf4⟩ := h.found n hn
  have g2 : cq ≤ hitQ2 cq sinA n :=
    le_trans (estQ2_ge cq sinA n h.cq_pos h.cq_le (h.sgn1 n hn))
      (lstHit_ge _ _ _)
  have g3 : 2 * cq ≤ hitQ3 cq sinA n := by
    have hge := lstHit_ge (PQ3 cq sinA n) (estQ3 cq sinA n) (3 * cq)
    have hest : 2 * cq ≤ estQ3 cq sinA n := Nat.le_add_left _ _
    unfold hitQ3
    omega
  have g4 : 3 * cq ≤ hitQ4 cq sinA n :=
    le_trans (estQ4_ge cq sinA n h.cq_pos h.cq_le (h.sgn3 n hn))
      (lstHit_ge _ _ _)
  unfold T1 T2 T3 T4
  omega

/-! ## The per-entry value of the finished tables

The s1 crossings in time order are `T1 0, T4 0, T1 1, T4 1, …` (`uS1`), the
s2 crossings `T2 0, T3 0, T2 1, T3 1, …` (`vS2`).  Table 1's positive
half-cycle holds the consecutive differences of the s1 chain (each written
twice, at a forward and a mirrored index), the negative half-cycle those of
the s2 chain; the midpoint `mf-1` and end point `2mf-1` hold
`T1 0 + T2 0`.  Table 2 swaps the two chains. -/

/-- The `j`-th s1 crossing tick. -/
def uS1 (cq : ℕ) (sinA : ℕ → ℤ) (j : ℕ) : ℕ :=
  if j % 2 = 0 then T1 cq sinA (j / 2) else T4 cq sinA (j / 2)

/-- The `j`-th s2 crossing tick. -/
def vS2 (cq : ℕ) (sinA : ℕ → ℤ) (j : ℕ) : ℕ :=
  if j % 2 = 0 then T2 cq sinA (j / 2) else T3 cq sinA (j / 2)

/-- The `j`-th duration of the s1 chain (`j < mf/2`); the last one is the
analytically derived `2 * (quarter_period - last_crossing)` of
spwm_lut.cpp line 376. -/
def dU (cq mf : ℕ) (sinA : ℕ → ℤ) (j : ℕ) : ℕ :=
  if j = 2 * (mf / 4) - 1 then
    2 * (signal_duration_quarter cq mf - uS1 cq sinA j)
  else uS1 cq sinA (j + 1) - uS1 cq sinA j

/-- The `j`-th duration of the s2 chain. -/
def dV (cq mf : ℕ) (sinA : ℕ → ℤ) (j : ℕ) : ℕ :=
  if j = 2 * (mf / 4) - 1 then
    2 * (signal_duration_quarter cq mf - vS2 cq sinA j)
  else vS2 cq sinA (j + 1) - vS2 cq sinA j

/-- The value of entry `i` of finished table 1. -/
def val1 (cq mf : ℕ) (sinA : ℕ → ℤ) (i : ℕ) : ℕ :=
  if i = mf - 1 ∨ i = 2 * mf - 1 then T1 cq sinA 0 + T2 cq sinA 0
  else if i < mf - 1 then dU cq mf sinA (min i (mf - 2 - i))
  else dV cq mf sinA (min (i - mf) (2 * mf - 2 - i))

/-- The value of entry `i` of finished table 2. -/
def val2 (cq mf : ℕ) (sinA : ℕ → ℤ) (i : ℕ) : ℕ :=
  if i = mf - 1 ∨ i = 2 * mf - 1 then T1 cq sinA 0 + T2 cq sinA 0
  else if i < mf - 1 then dV cq mf sinA (min i (mf - 2 - i))
  else dU cq mf sinA (min (i - mf) (2 * mf - 2 - i))

/-- Number of stores each pointer chain has performed after `n` carrier
cycles (`0` for `n = 0`, `2n-1` afterwards — in `ℕ`, `2*n - 1` covers both). -/
def cnt (n : ℕ) : ℕ := 2 * n - 1

/-- Whether entry `i` has been written during the first `n` carrier cycles. -/
def wrAt (mf n i : ℕ) : Prop :=
  ((i = mf - 1 ∨ i = 2 * mf - 1) ∧ 1 ≤ n) ∨
  (i < mf - 1 ∧ min i (mf - 2 - i) < cnt n) ∨
  (mf - 1 < i ∧ i < 2 * mf - 1 ∧ min (i - mf) (2 * mf - 2 - i) < cnt n)

instance (mf n i : ℕ) : Decidable (wrAt mf n i) := by
  unfold wrAt; infer_instance

theorem uS1_even (cq : ℕ) (sinA : ℕ → ℤ) (k : ℕ) :
    uS1 cq sinA (2 * k) = T1 cq sinA k := by
  unfold uS1
  rw [if_pos (by omega)]
  congr 1
  omega

theorem uS1_odd (cq : ℕ) (sinA : ℕ → ℤ) (k : ℕ) :
    uS1 cq sinA (2 * k + 1) = T4 cq sinA k := by
  unfold uS1
  rw [if_neg (by omega)]
  congr 1
  omega

theorem vS2_even (cq : ℕ) (sinA : ℕ → ℤ) (k : ℕ) :
    vS2 cq sinA (2 * k) = T2 cq sinA k := by
  unfold vS2
  rw [if_pos (by omega)]
  congr 1
  omega

theorem vS2_odd (cq : ℕ) (sinA : ℕ → ℤ) (k : ℕ) :
    vS2 cq sinA (2 * k + 1) = T3 cq sinA k := by
  unfold vS2
  rw [if_neg (by omega)]
  congr 1
  omega

theorem zeroTable_get? (mf : ℕ) :
    ∀ i, i < 2 * mf → (zeroTable mf).get? i = some 0 := by
  unfold zeroTable
  generalize 2 * mf = k
  induction k with
  | zero => intro i hi; omega
  | succ k ih =>
    intro i hi
    cases i with
    | zero => rfl
    | succ i => exact ih i (by omega)

theorem val1_mid (cq mf : ℕ) (sinA : ℕ → ℤ) (i : ℕ)
    (h : i = mf - 1 ∨ i = 2 * mf - 1) :
    val1 cq mf sinA i = T1 cq sinA 0 + T2 cq sinA 0 := by
  unfold val1; rw [if_pos h]

theorem val1_pos (cq mf : ℕ) (sinA : ℕ → ℤ) (i : ℕ) (h1 : i < mf - 1) :
    val1 cq mf sinA i = dU cq mf sinA (min i (mf - 2 - i)) := by
  unfold val1; rw [if_neg (by omega), if_pos h1]

theorem val1_neg (cq mf : ℕ) (sinA : ℕ → ℤ) (i : ℕ)
    (h1 : mf - 1 < i) (h2 : i < 2 * mf - 1) :
    val1 cq mf sinA i = dV cq mf sinA (min (i - mf) (2 * mf - 2 - i)) := by
  unfold val1; rw [if_neg (by omega), if_neg (by omega)]

theorem val2_mid (cq mf : ℕ) (sinA : ℕ → ℤ) (i : ℕ)
    (h : i = mf - 1 ∨ i = 2 * mf - 1) :
    val2 cq mf sinA i = T1 cq sinA 0 + T2 cq sinA 0 := by
  unfold val2; rw [if_pos h]

theorem val2_pos (cq mf : ℕ) (sinA : ℕ → ℤ) (i : ℕ) (h1 : i < mf - 1) :
    val2 cq mf sinA i = dV cq mf sinA (min i (mf - 2 - i)) := by
  unfold val2; rw [if_neg (by omega), if_pos h1]

theorem val2_neg (cq mf : ℕ) (sinA : ℕ → ℤ) (i : ℕ)
    (h1 : mf - 1 < i) (h2 : i < 2 * mf - 1) :
    val2 cq mf sinA i = dU cq mf sinA (min (i - mf) (2 * mf - 2 - i)) := by
  unfold val2; rw [if_neg (by omega), if_neg (by omega)]

theorem dU_even (cq mf : ℕ) (sinA : ℕ → ℤ) (k : ℕ)
    (h : 2 * k ≠ 2 * (mf / 4) - 1) :
    dU cq mf sinA (2 * k) = T4 cq sinA k - T1 cq sinA k := by
  unfold dU
  rw [if_neg h, uS1_odd, uS1_even]

theorem dU_odd (cq mf : ℕ) (sinA : ℕ → ℤ) (k : ℕ)
    (h : 2 * k + 1 ≠ 2 * (mf / 4) - 1) :
    dU cq mf sinA (2 * k + 1) = T1 cq sinA (k + 1) - T4 cq sinA k := by
  unfold dU
  rw [if_neg h]
  rw [show 2 * k + 1 + 1 = 2 * (k + 1) by ring, uS1_even, uS1_odd]

theorem dU_zero (cq mf : ℕ) (sinA : ℕ → ℤ) (h : 1 ≤ mf / 4) :
    dU cq mf sinA 0 = T4 cq sinA 0 - T1 cq sinA 0 := by
  have := dU_even cq mf sinA 0 (by omega)
  simpa using this

theorem dU_last (cq mf : ℕ) (sinA : ℕ → ℤ) (h : 1 ≤ mf / 4) :
    dU cq mf sinA (2 * (mf / 4) - 1)
      = 2 * (signal_duration_quarter cq mf - T4 cq sinA (mf / 4 - 1)) := by
  unfold dU
  rw [if_pos rfl]
  rw [show 2 * (mf / 4) - 1 = 2 * (mf / 4 - 1) + 1 by omega, uS1_odd]

theorem dV_even (cq mf : ℕ) (sinA : ℕ → ℤ) (k : ℕ)
    (h : 2 * k ≠ 2 * (mf / 4) - 1) :
    dV cq mf sinA (2 * k) = T3 cq sinA k - T2 cq sinA k := by
  unfold dV
  rw [if_neg h, vS2_odd, vS2_even]

theorem dV_odd (cq mf : ℕ) (sinA : ℕ → ℤ) (k : ℕ)
    (h : 2 * k + 1 ≠ 2 * (mf / 4) - 1) :
    dV cq mf sinA (2 * k + 1) = T2 cq sinA (k + 1) - T3 cq sinA k := by
  unfold dV
  rw [if_neg h]
  rw [show 2 * k + 1 + 1 = 2 * (k + 1) by ring, vS2_even, vS2_odd]

theorem dV_zero (cq mf : ℕ) (sinA : ℕ → ℤ) (h : 1 ≤ mf / 4) :
    dV cq mf sinA 0 = T3 cq sinA 0 - T2 cq sinA 0 := by
  have := dV_even cq mf sinA 0 (by omega)
  simpa using this

theorem dV_last (cq mf : ℕ) (sinA : ℕ → ℤ) (h : 1 ≤ mf / 4) :
    dV cq mf sinA (2 * (mf / 4) - 1)
      = 2 * (signal_duration_quarter cq mf - T3 cq sinA (mf / 4 - 1)) := by
  unfold dV
  rw [if_pos rfl]
  rw [show 2 * (mf / 4) - 1 = 2 * (mf / 4 - 1) + 1 by omega, vS2_odd]

/-- Entry-wise contents of table 1 after `n` carrier cycles: entry `i` holds
`val1 i` once written, and its initial `0` before. -/
theorem W1_get? (cq mf : ℕ) (sinA : ℕ → ℤ) (hmf : 4 ≤ mf)
    (hmod : mf % 4 = 0) :
    ∀ n, n ≤ mf / 4 → ∀ i, i < 2 * mf →
      (applyW (W1 cq mf sinA n) (zeroTable mf)).get? i
        = some (if wrAt mf n i then val1 cq mf sinA i else 0) := by
  intro n
  induction n with
  | zero =>
    intro _ i hi
    rw [show W1 cq mf sinA 0 = [] from rfl, applyW_nil, zeroTable_get? mf i hi]
    rw [if_neg (by unfold wrAt cnt; omega)]
  | succ n ih =>
    intro hn i hi
    have hN1 : 1 ≤ mf / 4 := by omega
    have IH := ih (by omega) i hi
    simp only [W1]
    rw [applyW_append]
    rcases Nat.eq_zero_or_pos n with hn0 | hn1
    · subst hn0
      have hb : block1 cq mf sinA 0 =
          [(mf - 1, T1 cq sinA 0 + T2 cq sinA 0),
           (2 * mf - 1, T1 cq sinA 0 + T2 cq sinA 0),
           (mf, T3 cq sinA 0 - T2 cq sinA 0),
           (2 * mf - 2, T3 cq sinA 0 - T2 cq sinA 0),
           (0, T4 cq sinA 0 - T1 cq sinA 0),
           (mf - 2, T4 cq sinA 0 - T1 cq sinA 0)] := by
        unfold block1; rw [if_pos rfl]
      rw [hb]
      simp only [applyW_cons, applyW_nil]
      by_cases hc0 : i = mf - 1
      · rw [hc0] at IH ⊢
        rw [List.get?_set_ne _ _ (show mf - 2 ≠ mf - 1 by omega)]
        rw [List.get?_set_ne _ _ (show 0 ≠ mf - 1 by omega)]
        rw [List.get?_set_ne _ _ (show 2 * mf - 2 ≠ mf - 1 by omega)]
        rw [List.get?_set_ne _ _ (show mf ≠ mf - 1 by omega)]
        rw [List.get?_set_ne _ _ (show 2 * mf - 1 ≠ mf - 1 by omega)]
        rw [List.get?_set_eq]
        rw [IH]
        simp only [Option.map_eq_map, Option.map_some']
        rw [if_pos (show wrAt mf (0 + 1) (mf - 1) by unfold wrAt cnt; omega)]
        congr 1
        rw [val1_mid cq mf sinA _ (by omega)]
      by_cases hc1 : i = 2 * mf - 1
      · rw [hc1] at IH ⊢
        rw [List.get?_set_ne _ _ (show mf - 2 ≠ 2 * mf - 1 by omega)]
        rw [List.get?_set_ne _ _ (show 0 ≠ 2 * mf - 1 by omega)]
        rw [List.get?_set_ne _ _ (show 2 * mf - 2 ≠ 2 * mf - 1 by omega)]
        rw [List.get?_set_ne _ _ (show mf ≠ 2 * mf - 1 by omega)]
        rw [List.get?_set_eq]
        rw [List.get?_set_ne _ _ (show mf - 1 ≠ 2 * mf - 1 by omega)]
        rw [IH]
        simp only [Option.map_eq_map, Option.map_some']
        rw [if_pos (show wrAt mf (0 + 1) (2 * mf - 1) by unfold wrAt cnt; omega)]
        congr 1
        rw [val1_mid cq mf sinA _ (by omega)]
      by_cases hc2 : i = mf
      · rw [hc2] at IH ⊢
        rw [List.get?_set_ne _ _ (show mf - 2 ≠ mf by omega)]
        rw [List.get?_set_ne _ _ (show 0 ≠ mf by omega)]
        rw [List.get?_set_ne _ _ (show 2 * mf - 2 ≠ mf by omega)]
        rw [List.get?_set_eq]
        rw [List.get?_set_ne _ _ (show 2 * mf - 1 ≠ mf by omega)]
        rw [List.get?_set_ne _ _ (show mf - 1 ≠ mf by omega)]
        rw [IH]
        simp only [Option.map_eq_map, Option.map_some']
        rw [if_pos (show wrAt mf (0 + 1) (mf) by unfold wrAt cnt; omega)]
        congr 1
        rw [val1_neg cq mf sinA _ (by omega) (by omega),
          show min ((mf) - mf) (2 * mf - 2 - (mf)) = 0 by omega,
          dV_zero cq mf sinA hN1]
      by_cases hc3 : i = 2 * mf - 2
      · rw [hc3] at IH ⊢
        rw [List.get?_set_ne _ _ (show mf - 2 ≠ 2 * mf - 2 by omega)]
        rw [List.get?_set_ne _ _ (show 0 ≠ 2 * mf - 2 by omega)]
        rw [List.get?_set_eq]
        rw [List.get?_set_ne _ _ (show mf ≠ 2 * mf - 2 by omega)]
        rw [List.get?_set_ne _ _ (show 2 * mf - 1 ≠ 2 * mf - 2 by omega)]
        rw [List.get?_set_ne _ _ (show mf - 1 ≠ 2 * mf - 2 by omega)]
        rw [IH]
        simp only [Option.map_eq_map, Option.map_some']
        rw [if_pos (show wrAt mf (0 + 1) (2 * mf - 2) by unfold wrAt cnt; omega)]
        congr 1
        rw [val1_neg cq mf sinA _ (by omega) (by omega),
          show min ((2 * mf - 2) - mf) (2 * mf - 2 - (2 * mf - 2)) = 0 by omega,
          dV_zero cq mf sinA hN1]
      by_cases hc4 : i = 0
      · rw [hc4] at IH ⊢
        rw [List.get?_set_ne _ _ (show mf - 2 ≠ 0 by omega)]
        rw [List.get?_set_eq]
        rw [List.get?_set_ne _ _ (show 2 * mf - 2 ≠ 0 by omega)]
        rw [List.get?_set_ne _ _ (show mf ≠ 0 by omega)]
        rw [List.get?_set_ne _ _ (show 2 * mf - 1 ≠ 0 by omega)]
        rw [List.get?_set_ne _ _ (show mf - 1 ≠ 0 by omega)]
        rw [IH]
        simp only [Option.map_eq_map, Option.map_some']
        rw [if_pos (show wrAt mf (0 + 1) (0) by unfold wrAt cnt; omega)]
        congr 1
        rw [val1_pos cq mf sinA _ (by omega),
          show min (0) (mf - 2 - (0)) = 0 by omega,
          dU_zero cq mf sinA hN1]
      by_cases hc5 : i = mf - 2
      · rw [hc5] at IH ⊢
        rw [List.get?_set_eq]
        rw [List.get?_set_ne _ _ (show 0 ≠ mf - 2 by omega)]
        rw [List.get?_set_ne _ _ (show 2 * mf - 2 ≠ mf - 2 by omega)]
        rw [List.get?_set_ne _ _ (show mf ≠ mf - 2 by omega)]
        rw [List.get?_set_ne _ _ (show 2 * mf - 1 ≠ mf - 2 by omega)]
        rw [List.get?_set_ne _ _ (show mf - 1 ≠ mf - 2 by omega)]
        rw [IH]
        simp only [Option.map_eq_map, Option.map_some']
        rw [if_pos (show wrAt mf (0 + 1) (mf - 2) by unfold wrAt cnt; omega)]
        congr 1
        rw [val1_pos cq mf sinA _ (by omega),
          show min (mf - 2) (mf - 2 - (mf - 2)) = 0 by omega,
          dU_zero cq mf sinA hN1]
      rw [List.get?_set_ne _ _ (show mf - 2 ≠ i by omega)]
      rw [List.get?_set_ne _ _ (show 0 ≠ i by omega)]
      rw [List.get?_set_ne _ _ (show 2 * mf - 2 ≠ i by omega)]
      rw [List.get?_set_ne _ _ (show mf ≠ i by omega)]
      rw [List.get?_set_ne _ _ (show 2 * mf - 1 ≠ i by omega)]
      rw [List.get?_set_ne _ _ (show mf - 1 ≠ i by omega)]
      rw [IH]
      rw [if_congr (show wrAt mf 0 i ↔ wrAt mf (0 + 1) i by unfold wrAt cnt; omega) rfl rfl]
    · have hb : block1 cq mf sinA n =
          [(2 * n - 1, T1 cq sinA n - T4 cq sinA (n - 1)),
           (mf - 2 - (2 * n - 1), T1 cq sinA n - T4 cq sinA (n - 1)),
           (mf + (2 * n - 1), T2 cq sinA n - T3 cq sinA (n - 1)),
           (2 * mf - 2 - (2 * n - 1), T2 cq sinA n - T3 cq sinA (n - 1)),
           (mf + (2 * n - 1) + 1, T3 cq sinA n - T2 cq sinA n),
           (2 * mf - 2 - (2 * n - 1) - 1, T3 cq sinA n - T2 cq sinA n),
           (2 * n - 1 + 1, T4 cq sinA n - T1 cq sinA n),
           (mf - 2 - (2 * n - 1) - 1, T4 cq sinA n - T1 cq sinA n)] := by
        unfold block1; rw [if_neg (by omega)]
      rw [hb]
      simp only [applyW_cons, applyW_nil]
      by_cases hc0 : i = 2 * n - 1
      · rw [hc0] at IH ⊢
        rw [List.get?_set_ne _ _ (show mf - 2 - (2 * n - 1) - 1 ≠ 2 * n - 1 by omega)]
        rw [List.get?_set_ne _ _ (show 2 * n - 1 + 1 ≠ 2 * n - 1 by omega)]
        rw [List.get?_set_ne _ _ (show 2 * mf - 2 - (2 * n - 1) - 1 ≠ 2 * n - 1 by omega)]
        rw [List.get?_set_ne _ _ (show mf + (2 * n - 1) + 1 ≠ 2 * n - 1 by omega)]
        rw [List.get?_set_ne _ _ (show 2 * mf - 2 - (2 * n - 1) ≠ 2 * n - 1 by omega)]
        rw [List.get?_set_ne _ _ (show mf + (2 * n - 1) ≠ 2 * n - 1 by omega)]
        rw [List.get?_set_ne _ _ (show mf - 2 - (2 * n - 1) ≠ 2 * n - 1 by omega)]
        rw [List.get?_set_eq]
        rw [IH]
        simp only [Option.map_eq_map, Option.map_some']
        rw [if_pos (show wrAt mf (n + 1) (2 * n - 1) by unfold wrAt cnt; omega)]
        congr 1
        rw [val1_pos cq mf sinA _ (by omega),
          show min (2 * n - 1) (mf - 2 - (2 * n - 1)) = 2 * (n - 1) + 1 by omega,
          dU_odd cq mf sinA (n - 1) (by omega),
          show n - 1 + 1 = n by omega]
      by_cases hc1 : i = mf - 2 - (2 * n - 1)
      · rw [hc1] at IH ⊢
        rw [List.get?_set_ne _ _ (show mf - 2 - (2 * n - 1) - 1 ≠ mf - 2 - (2 * n - 1) by omega)]
        rw [List.get?_set_ne _ _ (show 2 * n - 1 + 1 ≠ mf - 2 - (2 * n - 1) by omega)]
        rw [List.get?_set_ne _ _ (show 2 * mf - 2 - (2 * n - 1) - 1 ≠ mf - 2 - (2 * n - 1) by omega)]
        rw [List.get?_set_ne _ _ (show mf + (2 * n - 1) + 1 ≠ mf - 2 - (2 * n - 1) by omega)]
        rw [List.get?_set_ne _ _ (show 2 * mf - 2 - (2 * n - 1) ≠ mf - 2 - (2 * n - 1) by omega)]
        rw [List.get?_set_ne _ _ (show mf + (2 * n - 1) ≠ mf - 2 - (2 * n - 1) by omega)]
        rw [List.get?_set_eq]
        rw [List.get?_set_ne _ _ (show 2 * n - 1 ≠ mf - 2 - (2 * n - 1) by omega)]
        rw [IH]
        simp only [Option.map_eq_map, Option.map_some']
        rw [if_pos (show wrAt mf (n + 1) (mf - 2 - (2 * n - 1)) by unfold wrAt cnt; omega)]
        congr 1
        rw [val1_pos cq mf sinA _ (by omega),
          show min (mf - 2 - (2 * n - 1)) (mf - 2 - (mf - 2 - (2 * n - 1))) = 2 * (n - 1) + 1 by omega,
          dU_odd cq mf sinA (n - 1) (by omega),
          show n - 1 + 1 = n by omega]
      by_cases hc2 : i = mf + (2 * n - 1)
      · rw [hc2] at IH ⊢
        rw [List.get?_set_ne _ _ (show mf - 2 - (2 * n - 1) - 1 ≠ mf + (2 * n - 1) by omega)]
        rw [List.get?_set_ne _ _ (show 2 * n - 1 + 1 ≠ mf + (2 * n - 1) by omega)]
        rw [List.get?_set_ne _ _ (show 2 * mf - 2 - (2 * n - 1) - 1 ≠ mf + (2 * n - 1) by omega)]
        rw [List.get?_set_ne _ _ (show mf + (2 * n - 1) + 1 ≠ mf + (2 * n - 1) by omega)]
        rw [List.get?_set_ne _ _ (show 2 * mf - 2 - (2 * n - 1) ≠ mf + (2 * n - 1) by omega)]
        rw [List.get?_set_eq]
        rw [List.get?_set_ne _ _ (show mf - 2 - (2 * n - 1) ≠ mf + (2 * n - 1) by omega)]
        rw [List.get?_set_ne _ _ (show 2 * n - 1 ≠ mf + (2 * n - 1) by omega)]
        rw [IH]
        simp only [Option.map_eq_map, Option.map_some']
        rw [if_pos (show wrAt mf (n + 1) (mf + (2 * n - 1)) by unfold wrAt cnt; omega)]
        congr 1
        rw [val1_neg cq mf sinA _ (by omega) (by omega),
          show min ((mf + (2 * n - 1)) - mf) (2 * mf - 2 - (mf + (2 * n - 1))) = 2 * (n - 1) + 1 by omega,
          dV_odd cq mf sinA (n - 1) (by omega),
          show n - 1 + 1 = n by omega]
      by_cases hc3 : i = 2 * mf - 2 - (2 * n - 1)
      · rw [hc3] at IH ⊢
        rw [List.get?_set_ne _ _ (show mf - 2 - (2 * n - 1) - 1 ≠ 2 * mf - 2 - (2 * n - 1) by omega)]
        rw [List.get?_set_ne _ _ (show 2 * n - 1 + 1 ≠ 2 * mf - 2 - (2 * n - 1) by omega)]
        rw [List.get?_set_ne _ _ (show 2 * mf - 2 - (2 * n - 1) - 1 ≠ 2 * mf - 2 - (2 * n - 1) by omega)]
        rw [List.get?_set_ne _ _ (show mf + (2 * n - 1) + 1 ≠ 2 * mf - 2 - (2 * n - 1) by omega)]
        rw [List.get?_set_eq]
        rw [List.get?_set_ne _ _ (show mf + (2 * n - 1) ≠ 2 * mf - 2 - (2 * n - 1) by omega)]
        rw [List.get?_set_ne _ _ (show mf - 2 - (2 * n - 1) ≠ 2 * mf - 2 - (2 * n - 1) by omega)]
        rw [List.get?_set_ne _ _ (show 2 * n - 1 ≠ 2 * mf - 2 - (2 * n - 1) by omega)]
        rw [IH]
        simp only [Option.map_eq_map, Option.map_some']
        rw [if_pos (show wrAt mf (n + 1) (2 * mf - 2 - (2 * n - 1)) by unfold wrAt cnt; omega)]
        congr 1
        rw [val1_neg cq mf sinA _ (by omega) (by omega),
          show min ((2 * mf - 2 - (2 * n - 1)) - mf) (2 * mf - 2 - (2 * mf - 2 - (2 * n - 1))) = 2 * (n - 1) + 1 by omega,
          dV_odd cq mf sinA (n - 1) (by omega),
          show n - 1 + 1 = n by omega]
      by_cases hc4 : i = mf + (2 * n - 1) + 1
      · rw [hc4] at IH ⊢
        rw [List.get?_set_ne _ _ (show mf - 2 - (2 * n - 1) - 1 ≠ mf + (2 * n - 1) + 1 by omega)]
        rw [List.get?_set_ne _ _ (show 2 * n - 1 + 1 ≠ mf + (2 * n - 1) + 1 by omega)]
        rw [List.get?_set_ne _ _ (show 2 * mf - 2 - (2 * n - 1) - 1 ≠ mf + (2 * n - 1) + 1 by omega)]
        rw [List.get?_set_eq]
        rw [List.get?_set_ne _ _ (show 2 * mf - 2 - (2 * n - 1) ≠ mf + (2 * n - 1) + 1 by omega)]
        rw [List.get?_set_ne _ _ (show mf + (2 * n - 1) ≠ mf + (2 * n - 1) + 1 by omega)]
        rw [List.get?_set_ne _ _ (show mf - 2 - (2 * n - 1) ≠ mf + (2 * n - 1) + 1 by omega)]
        rw [List.get?_set_ne _ _ (show 2 * n - 1 ≠ mf + (2 * n - 1) + 1 by omega)]
        rw [IH]
        simp only [Option.map_eq_map, Option.map_some']
        rw [if_pos (show wrAt mf (n + 1) (mf + (2 * n - 1) + 1) by unfold wrAt cnt; omega)]
        congr 1
        rw [val1_neg cq mf sinA _ (by omega) (by omega),
          show min ((mf + (2 * n - 1) + 1) - mf) (2 * mf - 2 - (mf + (2 * n - 1) + 1)) = 2 * n by omega,
          dV_even cq mf sinA n (by omega)]
      by_cases hc5 : i = 2 * mf - 2 - (2 * n - 1) - 1
      · rw [hc5] at IH ⊢
        rw [List.get?_set_ne _ _ (show mf - 2 - (2 * n - 1) - 1 ≠ 2 * mf - 2 - (2 * n - 1) - 1 by omega)]
        rw [List.get?_set_ne _ _ (show 2 * n - 1 + 1 ≠ 2 * mf - 2 - (2 * n - 1) - 1 by omega)]
        rw [List.get?_set_eq]
        rw [List.get?_set_ne _ _ (show mf + (2 * n - 1) + 1 ≠ 2 * mf - 2 - (2 * n - 1) - 1 by omega)]
        rw [List.get?_set_ne _ _ (show 2 * mf - 2 - (2 * n - 1) ≠ 2 * mf - 2 - (2 * n - 1) - 1 by omega)]
        rw [List.get?_set_ne _ _ (show mf + (2 * n - 1) ≠ 2 * mf - 2 - (2 * n - 1) - 1 by omega)]
        rw [List.get?_set_ne _ _ (show mf - 2 - (2 * n - 1) ≠ 2 * mf - 2 - (2 * n - 1) - 1 by omega)]
        rw [List.get?_set_ne _ _ (show 2 * n - 1 ≠ 2 * mf - 2 - (2 * n - 1) - 1 by omega)]
        rw [IH]
        simp only [Option.map_eq_map, Option.map_some']
        rw [if_pos (show wrAt mf (n + 1) (2 * mf - 2 - (2 * n - 1) - 1) by unfold wrAt cnt; omega)]
        congr 1
        rw [val1_neg cq mf sinA _ (by omega) (by omega),
          show min ((2 * mf - 2 - (2 * n - 1) - 1) - mf) (2 * mf - 2 - (2 * mf - 2 - (2 * n - 1) - 1)) = 2 * n by omega,
          dV_even cq mf sinA n (by omega)]
      by_cases hc6 : i = 2 * n - 1 + 1
      · rw [hc6] at IH ⊢
        rw [List.get?_set_ne _ _ (show mf - 2 - (2 * n - 1) - 1 ≠ 2 * n - 1 + 1 by omega)]
        rw [List.get?_set_eq]
        rw [List.get?_set_ne _ _ (show 2 * mf - 2 - (2 * n - 1) - 1 ≠ 2 * n - 1 + 1 by omega)]
        rw [List.get?_set_ne _ _ (show mf + (2 * n - 1) + 1 ≠ 2 * n - 1 + 1 by omega)]
        rw [List.get?_set_ne _ _ (show 2 * mf - 2 - (2 * n - 1) ≠ 2 * n - 1 + 1 by omega)]
        rw [List.get?_set_ne _ _ (show mf + (2 * n - 1) ≠ 2 * n - 1 + 1 by omega)]
        rw [List.get?_set_ne _ _ (show mf - 2 - (2 * n - 1) ≠ 2 * n - 1 + 1 by omega)]
        rw [List.get?_set_ne _ _ (show 2 * n - 1 ≠ 2 * n - 1 + 1 by omega)]
        rw [IH]
        simp only [Option.map_eq_map, Option.map_some']
        rw [if_pos (show wrAt mf (n + 1) (2 * n - 1 + 1) by unfold wrAt cnt; omega)]
        congr 1
        rw [val1_pos cq mf sinA _ (by omega),
          show min (2 * n - 1 + 1) (mf - 2 - (2 * n - 1 + 1)) = 2 * n by omega,
          dU_even cq mf sinA n (by omega)]
      by_cases hc7 : i = mf - 2 - (2 * n - 1) - 1
      · rw [hc7] at IH ⊢
        rw [List.get?_set_eq]
        rw [List.get?_set_ne _ _ (show 2 * n - 1 + 1 ≠ mf - 2 - (2 * n - 1) - 1 by omega)]
        rw [List.get?_set_ne _ _ (show 2 * mf - 2 - (2 * n - 1) - 1 ≠ mf - 2 - (2 * n - 1) - 1 by omega)]
        rw [List.get?_set_ne _ _ (show mf + (2 * n - 1) + 1 ≠ mf - 2 - (2 * n - 1) - 1 by omega)]
        rw [List.get?_set_ne _ _ (show 2 * mf - 2 - (2 * n - 1) ≠ mf - 2 - (2 * n - 1) - 1 by omega)]
        rw [List.get?_set_ne _ _ (show mf + (2 * n - 1) ≠ mf - 2 - (2 * n - 1) - 1 by omega)]
        rw [List.get?_set_ne _ _ (show mf - 2 - (2 * n - 1) ≠ mf - 2 - (2 * n - 1) - 1 by omega)]
        rw [List.get?_set_ne _ _ (show 2 * n - 1 ≠ mf - 2 - (2 * n - 1) - 1 by omega)]
        rw [IH]
        simp only [Option.map_eq_map, Option.map_some']
        rw [if_pos (show wrAt mf (n + 1) (mf - 2 - (2 * n - 1) - 1) by unfold wrAt cnt; omega)]
        congr 1
        rw [val1_pos cq mf sinA _ (by omega),
          show min (mf - 2 - (2 * n - 1) - 1) (mf - 2 - (mf - 2 - (2 * n - 1) - 1)) = 2 * n by omega,
          dU_even cq mf sinA n (by omega)]
      rw [List.get?_set_ne _ _ (show mf - 2 - (2 * n - 1) - 1 ≠ i by omega)]
      rw [List.get?_set_ne _ _ (show 2 * n - 1 + 1 ≠ i by omega)]
      rw [List.get?_set_ne _ _ (show 2 * mf - 2 - (2 * n - 1) - 1 ≠ i by omega)]
      rw [List.get?_set_ne _ _ (show mf + (2 * n - 1) + 1 ≠ i by omega)]
      rw [List.get?_set_ne _ _ (show 2 * mf - 2 - (2 * n - 1) ≠ i by omega)]
      rw [List.get?_set_ne _ _ (show mf + (2 * n - 1) ≠ i by omega)]
      rw [List.get?_set_ne _ _ (show mf - 2 - (2 * n - 1) ≠ i by omega)]
      rw [List.get?_set_ne _ _ (show 2 * n - 1 ≠ i by omega)]
      rw [IH]
      rw [if_congr (show wrAt mf n i ↔ wrAt mf (n + 1) i by unfold wrAt cnt; omega) rfl rfl]

/-- Entry-wise contents of table 2 after `n` carrier cycles: entry `i` holds
`val2 i` once written, and its initial `0` before. -/
theorem W2_get? (cq mf : ℕ) (sinA : ℕ → ℤ) (hmf : 4 ≤ mf)
    (hmod : mf % 4 = 0) :
    ∀ n, n ≤ mf / 4 → ∀ i, i < 2 * mf →
      (applyW (W2 cq mf sinA n) (zeroTable mf)).get? i
        = some (if wrAt mf n i then val2 cq mf sinA i else 0) := by
  intro n
  induction n with
  | zero =>
    intro _ i hi
    rw [show W2 cq mf sinA 0 = [] from rfl, applyW_nil, zeroTable_get? mf i hi]
    rw [if_neg (by unfold wrAt cnt; omega)]
  | succ n ih =>
    intro hn i hi
    have hN1 : 1 ≤ mf / 4 := by omega
    have IH := ih (by omega) i hi
    simp only [W2]
    rw [applyW_append]
    rcases Nat.eq_zero_or_pos n with hn0 | hn1
    · subst hn0
      have hb : block2 cq mf sinA 0 =
          [(mf - 1, T1 cq sinA 0 + T2 cq sinA 0),
           (2 * mf - 1, T1 cq sinA 0 + T2 cq sinA 0),
           (0, T3 cq sinA 0 - T2 cq sinA 0),
           (mf - 2, T3 cq sinA 0 - T2 cq sinA 0),
           (mf, T4 cq sinA 0 - T1 cq sinA 0),
           (2 * mf - 2, T4 cq sinA 0 - T1 cq sinA 0)] := by
        unfold block2; rw [if_pos rfl]
      rw [hb]
      simp only [applyW_cons, applyW_nil]
      by_cases hc0 : i = mf - 1
      · rw [hc0] at IH ⊢
        rw [List.get?_set_ne _ _ (show 2 * mf - 2 ≠ mf - 1 by omega)]
        rw [List.get?_set_ne _ _ (show mf ≠ mf - 1 by omega)]
        rw [List.get?_set_ne _ _ (show mf - 2 ≠ mf - 1 by omega)]
        rw [List.get?_set_ne _ _ (show 0 ≠ mf - 1 by omega)]
        rw [List.get?_set_ne _ _ (show 2 * mf - 1 ≠ mf - 1 by omega)]
        rw [List.get?_set_eq]
        rw [IH]
        simp only [Option.map_eq_map, Option.map_some']
        rw [if_pos (show wrAt mf (0 + 1) (mf - 1) by unfold wrAt cnt; omega)]
        congr 1
        rw [val2_mid cq mf sinA _ (by omega)]
      by_cases hc1 : i = 2 * mf - 1
      · rw [hc1] at IH ⊢
        rw [List.get?_set_ne _ _ (show 2 * mf - 2 ≠ 2 * mf - 1 by omega)]
        rw [List.get?_set_ne _ _ (show mf ≠ 2 * mf - 1 by omega)]
        rw [List.get?_set_ne _ _ (show mf - 2 ≠ 2 * mf - 1 by omega)]
        rw [List.get?_set_ne _ _ (show 0 ≠ 2 * mf - 1 by omega)]
        rw [List.get?_set_eq]
        rw [List.get?_set_ne _ _ (show mf - 1 ≠ 2 * mf - 1 by omega)]
        rw [IH]
        simp only [Option.map_eq_map, Option.map_some']
        rw [if_pos (show wrAt mf (0 + 1) (2 * mf - 1) by unfold wrAt cnt; omega)]
        congr 1
        rw [val2_mid cq mf sinA _ (by omega)]
      by_cases hc2 : i = 0
      · rw [hc2] at IH ⊢
        rw [List.get?_set_ne _ _ (show 2 * mf - 2 ≠ 0 by omega)]
        rw [List.get?_set_ne _ _ (show mf ≠ 0 by omega)]
        rw [List.get?_set_ne _ _ (show mf - 2 ≠ 0 by omega)]
        rw [List.get?_set_eq]
        rw [List.get?_set_ne _ _ (show 2 * mf - 1 ≠ 0 by omega)]
        rw [List.get?_set_ne _ _ (show mf - 1 ≠ 0 by omega)]
        rw [IH]
        simp only [Option.map_eq_map, Option.map_some']
        rw [if_pos (show wrAt mf (0 + 1) (0) by unfold wrAt cnt; omega)]
        congr 1
        rw [val2_pos cq mf sinA _ (by omega),
          show min (0) (mf - 2 - (0)) = 0 by omega,
          dV_zero cq mf sinA hN1]
      by_cases hc3 : i = mf - 2
      · rw [hc3] at IH ⊢
        rw [List.get?_set_ne _ _ (show 2 * mf - 2 ≠ mf - 2 by omega)]
        rw [List.get?_set_ne _ _ (show mf ≠ mf - 2 by omega)]
        rw [List.get?_set_eq]
        rw [List.get?_set_ne _ _ (show 0 ≠ mf - 2 by omega)]
        rw [List.get?_set_ne _ _ (show 2 * mf - 1 ≠ mf - 2 by omega)]
        rw [List.get?_set_ne _ _ (show mf - 1 ≠ mf - 2 by omega)]
        rw [IH]
        simp only [Option.map_eq_map, Option.map_some']
        rw [if_pos (show wrAt mf (0 + 1) (mf - 2) by unfold wrAt cnt; omega)]
        congr 1
        rw [val2_pos cq mf sinA _ (by omega),
          show min (mf - 2) (mf - 2 - (mf - 2)) = 0 by omega,
          dV_zero cq mf sinA hN1]
      by_cases hc4 : i = mf
      · rw [hc4] at IH ⊢
        rw [List.get?_set_ne _ _ (show 2 * mf - 2 ≠ mf by omega)]
        rw [List.get?_set_eq]
        rw [List.get?_set_ne _ _ (show mf - 2 ≠ mf by omega)]
        rw [List.get?_set_ne _ _ (show 0 ≠ mf by omega)]
        rw [List.get?_set_ne _ _ (show 2 * mf - 1 ≠ mf by omega)]
        rw [List.get?_set_ne _ _ (show mf - 1 ≠ mf by omega)]
        rw [IH]
        simp only [Option.map_eq_map, Option.map_some']
        rw [if_pos (show wrAt mf (0 + 1) (mf) by unfold wrAt cnt; omega)]
        congr 1
        rw [val2_neg cq mf sinA _ (by omega) (by omega),
          show min ((mf) - mf) (2 * mf - 2 - (mf)) = 0 by omega,
          dU_zero cq mf sinA hN1]
      by_cases hc5 : i = 2 * mf - 2
      · rw [hc5] at IH ⊢
        rw [List.get?_set_eq]
        rw [List.get?_set_ne _ _ (show mf ≠ 2 * mf - 2 by omega)]
        rw [List.get?_set_ne _ _ (show mf - 2 ≠ 2 * mf - 2 by omega)]
        rw [List.get?_set_ne _ _ (show 0 ≠ 2 * mf - 2 by omega)]
        rw [List.get?_set_ne _ _ (show 2 * mf - 1 ≠ 2 * mf - 2 by omega)]
        rw [List.get?_set_ne _ _ (show mf - 1 ≠ 2 * mf - 2 by omega)]
        rw [IH]
        simp only [Option.map_eq_map, Option.map_some']
        rw [if_pos (show wrAt mf (0 + 1) (2 * mf - 2) by unfold wrAt cnt; omega)]
        congr 1
        rw [val2_neg cq mf sinA _ (by omega) (by omega),
          show min ((2 * mf - 2) - mf) (2 * mf - 2 - (2 * mf - 2)) = 0 by omega,
          dU_zero cq mf sinA hN1]
      rw [List.get?_set_ne _ _ (show 2 * mf - 2 ≠ i by omega)]
      rw [List.get?_set_ne _ _ (show mf ≠ i by omega)]
      rw [List.get?_set_ne _ _ (show mf - 2 ≠ i by omega)]
      rw [List.get?_set_ne _ _ (show 0 ≠ i by omega)]
      rw [List.get?_set_ne _ _ (show 2 * mf - 1 ≠ i by omega)]
      rw [List.get?_set_ne _ _ (show mf - 1 ≠ i by omega)]
      rw [IH]
      rw [if_congr (show wrAt mf 0 i ↔ wrAt mf (0 + 1) i by unfold wrAt cnt; omega) rfl rfl]
    · have hb : block2 cq mf sinA n =
          [(mf + (2 * n - 1), T1 cq sinA n - T4 cq sinA (n - 1)),
           (2 * mf - 2 - (2 * n - 1), T1 cq sinA n - T4 cq sinA (n - 1)),
           (2 * n - 1, T2 cq sinA n - T3 cq sinA (n - 1)),
           (mf - 2 - (2 * n - 1), T2 cq sinA n - T3 cq sinA (n - 1)),
           (2 * n - 1 + 1, T3 cq sinA n - T2 cq sinA n),
           (mf - 2 - (2 * n - 1) - 1, T3 cq sinA n - T2 cq sinA n),
           (mf + (2 * n - 1) + 1, T4 cq sinA n - T1 cq sinA n),
           (2 * mf - 2 - (2 * n - 1) - 1, T4 cq sinA n - T1 cq sinA n)] := by
        unfold block2; rw [if_neg (by omega)]
      rw [hb]
      simp only [applyW_cons, applyW_nil]
      by_cases hc0 : i = mf + (2 * n - 1)
      · rw [hc0] at IH ⊢
        rw [List.get?_set_ne _ _ (show 2 * mf - 2 - (2 * n - 1) - 1 ≠ mf + (2 * n - 1) by omega)]
        rw [List.get?_set_ne _ _ (show mf + (2 * n - 1) + 1 ≠ mf + (2 * n - 1) by omega)]
        rw [List.get?_set_ne _ _ (show mf - 2 - (2 * n - 1) - 1 ≠ mf + (2 * n - 1) by omega)]
        rw [List.get?_set_ne _ _ (show 2 * n - 1 + 1 ≠ mf + (2 * n - 1) by omega)]
        rw [List.get?_set_ne _ _ (show mf - 2 - (2 * n - 1) ≠ mf + (2 * n - 1) by omega)]
        rw [List.get?_set_ne _ _ (show 2 * n - 1 ≠ mf + (2 * n - 1) by omega)]
        rw [List.get?_set_ne _ _ (show 2 * mf - 2 - (2 * n - 1) ≠ mf + (2 * n - 1) by omega)]
        rw [List.get?_set_eq]
        rw [IH]
        simp only [Option.map_eq_map, Option.map_some']
        rw [if_pos (show wrAt mf (n + 1) (mf + (2 * n - 1)) by unfold wrAt cnt; omega)]
        congr 1
        rw [val2_neg cq mf sinA _ (by omega) (by omega),
          show min ((mf + (2 * n - 1)) - mf) (2 * mf - 2 - (mf + (2 * n - 1))) = 2 * (n - 1) + 1 by omega,
          dU_odd cq mf sinA (n - 1) (by omega),
          show n - 1 + 1 = n by omega]
      by_cases hc1 : i = 2 * mf - 2 - (2 * n - 1)
      · rw [hc1] at IH ⊢
        rw [List.get?_set_ne _ _ (show 2 * mf - 2 - (2 * n - 1) - 1 ≠ 2 * mf - 2 - (2 * n - 1) by omega)]
        rw [List.get?_set_ne _ _ (show mf + (2 * n - 1) + 1 ≠ 2 * mf - 2 - (2 * n - 1) by omega)]
        rw [List.get?_set_ne _ _ (show mf - 2 - (2 * n - 1) - 1 ≠ 2 * mf - 2 - (2 * n - 1) by omega)]
        rw [List.get?_set_ne _ _ (show 2 * n - 1 + 1 ≠ 2 * mf - 2 - (2 * n - 1) by omega)]
        rw [List.get?_set_ne _ _ (show mf - 2 - (2 * n - 1) ≠ 2 * mf - 2 - (2 * n - 1) by omega)]
        rw [List.get?_set_ne _ _ (show 2 * n - 1 ≠ 2 * mf - 2 - (2 * n - 1) by omega)]
        rw [List.get?_set_eq]
        rw [List.get?_set_ne _ _ (show mf + (2 * n - 1) ≠ 2 * mf - 2 - (2 * n - 1) by omega)]
        rw [IH]
        simp only [Option.map_eq_map, Option.map_some']
        rw [if_pos (show wrAt mf (n + 1) (2 * mf - 2 - (2 * n - 1)) by unfold wrAt cnt; omega)]
        congr 1
        rw [val2_neg cq mf sinA _ (by omega) (by omega),
          show min ((2 * mf - 2 - (2 * n - 1)) - mf) (2 * mf - 2 - (2 * mf - 2 - (2 * n - 1))) = 2 * (n - 1) + 1 by omega,
          dU_odd cq mf sinA (n - 1) (by omega),
          show n - 1 + 1 = n by omega]
      by_cases hc2 : i = 2 * n - 1
      · rw [hc2] at IH ⊢
        rw [List.get?_set_ne _ _ (show 2 * mf - 2 - (2 * n - 1) - 1 ≠ 2 * n - 1 by omega)]
        rw [List.get?_set_ne _ _ (show mf + (2 * n - 1) + 1 ≠ 2 * n - 1 by omega)]
        rw [List.get?_set_ne _ _ (show mf - 2 - (2 * n - 1) - 1 ≠ 2 * n - 1 by omega)]
        rw [List.get?_set_ne _ _ (show 2 * n - 1 + 1 ≠ 2 * n - 1 by omega)]
        rw [List.get?_set_ne _ _ (show mf - 2 - (2 * n - 1) ≠ 2 * n - 1 by omega)]
        rw [List.get?_set_eq]
        rw [List.get?_set_ne _ _ (show 2 * mf - 2 - (2 * n - 1) ≠ 2 * n - 1 by omega)]
        rw [List.get?_set_ne _ _ (show mf + (2 * n - 1) ≠ 2 * n - 1 by omega)]
        rw [IH]
        simp only [Option.map_eq_map, Option.map_some']
        rw [if_pos (show wrAt mf (n + 1) (2 * n - 1) by unfold wrAt cnt; omega)]
        congr 1
        rw [val2_pos cq mf sinA _ (by omega),
          show min (2 * n - 1) (mf - 2 - (2 * n - 1)) = 2 * (n - 1) + 1 by omega,
          dV_odd cq mf sinA (n - 1) (by omega),
          show n - 1 + 1 = n by omega]
      by_cases hc3 : i = mf - 2 - (2 * n - 1)
      · rw [hc3] at IH ⊢
        rw [List.get?_set_ne _ _ (show 2 * mf - 2 - (2 * n - 1) - 1 ≠ mf - 2 - (2 * n - 1) by omega)]
        rw [List.get?_set_ne _ _ (show mf + (2 * n - 1) + 1 ≠ mf - 2 - (2 * n - 1) by omega)]
        rw [List.get?_set_ne _ _ (show mf - 2 - (2 * n - 1) - 1 ≠ mf - 2 - (2 * n - 1) by omega)]
        rw [List.get?_set_ne _ _ (show 2 * n - 1 + 1 ≠ mf - 2 - (2 * n - 1) by omega)]
        rw [List.get?_set_eq]
        rw [List.get?_set_ne _ _ (show 2 * n - 1 ≠ mf - 2 - (2 * n - 1) by omega)]
        rw [List.get?_set_ne _ _ (show 2 * mf - 2 - (2 * n - 1) ≠ mf - 2 - (2 * n - 1) by omega)]
        rw [List.get?_set_ne _ _ (show mf + (2 * n - 1) ≠ mf - 2 - (2 * n - 1) by omega)]
        rw [IH]
        simp only [Option.map_eq_map, Option.map_some']
        rw [if_pos (show wrAt mf (n + 1) (mf - 2 - (2 * n - 1)) by unfold wrAt cnt; omega)]
        congr 1
        rw [val2_pos cq mf sinA _ (by omega),
          show min (mf - 2 - (2 * n - 1)) (mf - 2 - (mf - 2 - (2 * n - 1))) = 2 * (n - 1) + 1 by omega,
          dV_odd cq mf sinA (n - 1) (by omega),
          show n - 1 + 1 = n by omega]
      by_cases hc4 : i = 2 * n - 1 + 1
      · rw [hc4] at IH ⊢
        rw [List.get?_set_ne _ _ (show 2 * mf - 2 - (2 * n - 1) - 1 ≠ 2 * n - 1 + 1 by omega)]
        rw [List.get?_set_ne _ _ (show mf + (2 * n - 1) + 1 ≠ 2 * n - 1 + 1 by omega)]
        rw [List.get?_set_ne _ _ (show mf - 2 - (2 * n - 1) - 1 ≠ 2 * n - 1 + 1 by omega)]
        rw [List.get?_set_eq]
        rw [List.get?_set_ne _ _ (show mf - 2 - (2 * n - 1) ≠ 2 * n - 1 + 1 by omega)]
        rw [List.get?_set_ne _ _ (show 2 * n - 1 ≠ 2 * n - 1 + 1 by omega)]
        rw [List.get?_set_ne _ _ (show 2 * mf - 2 - (2 * n - 1) ≠ 2 * n - 1 + 1 by omega)]
        rw [List.get?_set_ne _ _ (show mf + (2 * n - 1) ≠ 2 * n - 1 + 1 by omega)]
        rw [IH]
        simp only [Option.map_eq_map, Option.map_some']
        rw [if_pos (show wrAt mf (n + 1) (2 * n - 1 + 1) by unfold wrAt cnt; omega)]
        congr 1
        rw [val2_pos cq mf sinA _ (by omega),
          show min (2 * n - 1 + 1) (mf - 2 - (2 * n - 1 + 1)) = 2 * n by omega,
          dV_even cq mf sinA n (by omega)]
      by_cases hc5 : i = mf - 2 - (2 * n - 1) - 1
      · rw [hc5] at IH ⊢
        rw [List.get?_set_ne _ _ (show 2 * mf - 2 - (2 * n - 1) - 1 ≠ mf - 2 - (2 * n - 1) - 1 by omega)]
        rw [List.get?_set_ne _ _ (show mf + (2 * n - 1) + 1 ≠ mf - 2 - (2 * n - 1) - 1 by omega)]
        rw [List.get?_set_eq]
        rw [List.get?_set_ne _ _ (show 2 * n - 1 + 1 ≠ mf - 2 - (2 * n - 1) - 1 by omega)]
        rw [List.get?_set_ne _ _ (show mf - 2 - (2 * n - 1) ≠ mf - 2 - (2 * n - 1) - 1 by omega)]
        rw [List.get?_set_ne _ _ (show 2 * n - 1 ≠ mf - 2 - (2 * n - 1) - 1 by omega)]
        rw [List.get?_set_ne _ _ (show 2 * mf - 2 - (2 * n - 1) ≠ mf - 2 - (2 * n - 1) - 1 by omega)]
        rw [List.get?_set_ne _ _ (show mf + (2 * n - 1) ≠ mf - 2 - (2 * n - 1) - 1 by omega)]
        rw [IH]
        simp only [Option.map_eq_map, Option.map_some']
        rw [if_pos (show wrAt mf (n + 1) (mf - 2 - (2 * n - 1) - 1) by unfold wrAt cnt; omega)]
        congr 1
        rw [val2_pos cq mf sinA _ (by omega),
          show min (mf - 2 - (2 * n - 1) - 1) (mf - 2 - (mf - 2 - (2 * n - 1) - 1)) = 2 * n by omega,
          dV_even cq mf sinA n (by omega)]
      by_cases hc6 : i = mf + (2 * n - 1) + 1
      · rw [hc6] at IH ⊢
        rw [List.get?_set_ne _ _ (show 2 * mf - 2 - (2 * n - 1) - 1 ≠ mf + (2 * n - 1) + 1 by omega)]
        rw [List.get?_set_eq]
        rw [List.get?_set_ne _ _ (show mf - 2 - (2 * n - 1) - 1 ≠ mf + (2 * n - 1) + 1 by omega)]
        rw [List.get?_set_ne _ _ (show 2 * n - 1 + 1 ≠ mf + (2 * n - 1) + 1 by omega)]
        rw [List.get?_set_ne _ _ (show mf - 2 - (2 * n - 1) ≠ mf + (2 * n - 1) + 1 by omega)]
        rw [List.get?_set_ne _ _ (show 2 * n - 1 ≠ mf + (2 * n - 1) + 1 by omega)]
        rw [List.get?_set_ne _ _ (show 2 * mf - 2 - (2 * n - 1) ≠ mf + (2 * n - 1) + 1 by omega)]
        rw [List.get?_set_ne _ _ (show mf + (2 * n - 1) ≠ mf + (2 * n - 1) + 1 by omega)]
        rw [IH]
        simp only [Option.map_eq_map, Option.map_some']
        rw [if_pos (show wrAt mf (n + 1) (mf + (2 * n - 1) + 1) by unfold wrAt cnt; omega)]
        congr 1
        rw [val2_neg cq mf sinA _ (by omega) (by omega),
          show min ((mf + (2 * n - 1) + 1) - mf) (2 * mf - 2 - (mf + (2 * n - 1) + 1)) = 2 * n by omega,
          dU_even cq mf sinA n (by omega)]
      by_cases hc7 : i = 2 * mf - 2 - (2 * n - 1) - 1
      · rw [hc7] at IH ⊢
        rw [List.get?_set_eq]
        rw [List.get?_set_ne _ _ (show mf + (2 * n - 1) + 1 ≠ 2 * mf - 2 - (2 * n - 1) - 1 by omega)]
        rw [List.get?_set_ne _ _ (show mf - 2 - (2 * n - 1) - 1 ≠ 2 * mf - 2 - (2 * n - 1) - 1 by omega)]
        rw [List.get?_set_ne _ _ (show 2 * n - 1 + 1 ≠ 2 * mf - 2 - (2 * n - 1) - 1 by omega)]
        rw [List.get?_set_ne _ _ (show mf - 2 - (2 * n - 1) ≠ 2 * mf - 2 - (2 * n - 1) - 1 by omega)]
        rw [List.get?_set_ne _ _ (show 2 * n - 1 ≠ 2 * mf - 2 - (2 * n - 1) - 1 by omega)]
        rw [List.get?_set_ne _ _ (show 2 * mf - 2 - (2 * n - 1) ≠ 2 * mf - 2 - (2 * n - 1) - 1 by omega)]
        rw [List.get?_set_ne _ _ (show mf + (2 * n - 1) ≠ 2 * mf - 2 - (2 * n - 1) - 1 by omega)]
        rw [IH]
        simp only [Option.map_eq_map, Option.map_some']
        rw [if_pos (show wrAt mf (n + 1) (2 * mf - 2 - (2 * n - 1) - 1) by unfold wrAt cnt; omega)]
        congr 1
        rw [val2_neg cq mf sinA _ (by omega) (by omega),
          show min ((2 * mf - 2 - (2 * n - 1) - 1) - mf) (2 * mf - 2 - (2 * mf - 2 - (2 * n - 1) - 1)) = 2 * n by omega,
          dU_even cq mf sinA n (by omega)]
      rw [List.get?_set_ne _ _ (show 2 * mf - 2 - (2 * n - 1) - 1 ≠ i by omega)]
      rw [List.get?_set_ne _ _ (show mf + (2 * n - 1) + 1 ≠ i by omega)]
      rw [List.get?_set_ne _ _ (show mf - 2 - (2 * n - 1) - 1 ≠ i by omega)]
      rw [List.get?_set_ne _ _ (show 2 * n - 1 + 1 ≠ i by omega)]
      rw [List.get?_set_ne _ _ (show mf - 2 - (2 * n - 1) ≠ i by omega)]
      rw [List.get?_set_ne _ _ (show 2 * n - 1 ≠ i by omega)]
      rw [List.get?_set_ne _ _ (show 2 * mf - 2 - (2 * n - 1) ≠ i by omega)]
      rw [List.get?_set_ne _ _ (show mf + (2 * n - 1) ≠ i by omega)]
      rw [IH]
      rw [if_congr (show wrAt mf n i ↔ wrAt mf (n + 1) i by unfold wrAt cnt; omega) rfl rfl]

/-- Entry-wise contents of finished table 1 (after the two post-loop
stores): every entry holds `val1`. -/
theorem h1full_get? (cq mf : ℕ) (sinA : ℕ → ℤ) (hmf : 4 ≤ mf)
    (hmod : mf % 4 = 0) :
    ∀ i, i < 2 * mf →
      (applyW (W1full cq mf sinA) (zeroTable mf)).get? i
        = some (val1 cq mf sinA i) := by
  intro i hi
  have hN1 : 1 ≤ mf / 4 := by omega
  have IH := W1_get? cq mf sinA hmf hmod (mf / 4) (le_refl _) i hi
  unfold W1full fin1
  rw [applyW_append]
  simp only [applyW_cons, applyW_nil]
  by_cases hc0 : i = 2 * (mf / 4) - 1
  · rw [hc0] at IH ⊢
    rw [List.get?_set_ne _ _
      (show mf + (2 * (mf / 4) - 1) ≠ 2 * (mf / 4) - 1 by omega)]
    rw [List.get?_set_eq]
    rw [IH]
    simp only [Option.map_eq_map, Option.map_some']
    congr 1
    rw [val1_pos cq mf sinA _ (by omega),
      show min (2 * (mf / 4) - 1) (mf - 2 - (2 * (mf / 4) - 1))
        = 2 * (mf / 4) - 1 by omega,
      dU_last cq mf sinA hN1]
  by_cases hc1 : i = mf + (2 * (mf / 4) - 1)
  · rw [hc1] at IH ⊢
    rw [List.get?_set_eq]
    rw [List.get?_set_ne _ _
      (show 2 * (mf / 4) - 1 ≠ mf + (2 * (mf / 4) - 1) by omega)]
    rw [IH]
    simp only [Option.map_eq_map, Option.map_some']
    congr 1
    rw [val1_neg cq mf sinA _ (by omega) (by omega),
      show min (mf + (2 * (mf / 4) - 1) - mf)
        (2 * mf - 2 - (mf + (2 * (mf / 4) - 1))) = 2 * (mf / 4) - 1 by omega,
      dV_last cq mf sinA hN1]
  rw [List.get?_set_ne _ _ (show mf + (2 * (mf / 4) - 1) ≠ i by omega)]
  rw [List.get?_set_ne _ _ (show 2 * (mf / 4) - 1 ≠ i by omega)]
  rw [IH]
  rw [if_pos (show wrAt mf (mf / 4) i by unfold wrAt cnt; omega)]

/-- Entry-wise contents of finished table 2: every entry holds `val2`. -/
theorem h2full_get? (cq mf : ℕ) (sinA : ℕ → ℤ) (hmf : 4 ≤ mf)
    (hmod : mf % 4 = 0) :
    ∀ i, i < 2 * mf →
      (applyW (W2full cq mf sinA) (zeroTable mf)).get? i
        = some (val2 cq mf sinA i) := by
  intro i hi
  have hN1 : 1 ≤ mf / 4 := by omega
  have IH := W2_get? cq mf sinA hmf hmod (mf / 4) (le_refl _) i hi
  unfold W2full fin2
  rw [applyW_append]
  simp only [applyW_cons, applyW_nil]
  by_cases hc0 : i = mf + (2 * (mf / 4) - 1)
  · rw [hc0] at IH ⊢
    rw [List.get?_set_ne _ _
      (show 2 * (mf / 4) - 1 ≠ mf + (2 * (mf / 4) - 1) by omega)]
    rw [List.get?_set_eq]
    rw [IH]
    simp only [Option.map_eq_map, Option.map_some']
    congr 1
    rw [val2_neg cq mf sinA _ (by omega) (by omega),
      show min (mf + (2 * (mf / 4) - 1) - mf)
        (2 * mf - 2 - (mf + (2 * (mf / 4) - 1))) = 2 * (mf / 4) - 1 by omega,
      dU_last cq mf sinA hN1]
  by_cases hc1 : i = 2 * (mf / 4) - 1
  · rw [hc1] at IH ⊢
    rw [List.get?_set_eq]
    rw [List.get?_set_ne _ _
      (show mf + (2 * (mf / 4) - 1) ≠ 2 * (mf / 4) - 1 by omega)]
    rw [IH]
    simp only [Option.map_eq_map, Option.map_some']
    congr 1
    rw [val2_pos cq mf sinA _ (by omega),
      show min (2 * (mf / 4) - 1) (mf - 2 - (2 * (mf / 4) - 1))
        = 2 * (mf / 4) - 1 by omega,
      dV_last cq mf sinA hN1]
  rw [List.get?_set_ne _ _ (show 2 * (mf / 4) - 1 ≠ i by omega)]
  rw [List.get?_set_ne _ _ (show mf + (2 * (mf / 4) - 1) ≠ i by omega)]
  rw [IH]
  rw [if_pos (show wrAt mf (mf / 4) i by unfold wrAt cnt; omega)]

/-- Half-cycle shift: entry `i + mf` of table 2 carries the value of entry
`i` of table 1. -/
theorem val2_shift (cq mf : ℕ) (sinA : ℕ → ℤ) (hmf : 4 ≤ mf) (i : ℕ)
    (hi : i < mf) :
    val2 cq mf sinA (i + mf) = val1 cq mf sinA i := by
  by_cases hm : i = mf - 1
  · rw [val2_mid cq mf sinA _ (by omega), val1_mid cq mf sinA _ (by omega)]
  · rw [val2_neg cq mf sinA _ (by omega) (by omega),
      val1_pos cq mf sinA _ (by omega),
      show min (i + mf - mf) (2 * mf - 2 - (i + mf)) = min i (mf - 2 - i)
        by omega]

/-- Half-cycle shift: entry `i + mf` of table 1 carries the value of entry
`i` of table 2. -/
theorem val1_shift (cq mf : ℕ) (sinA : ℕ → ℤ) (hmf : 4 ≤ mf) (i : ℕ)
    (hi : i < mf) :
    val1 cq mf sinA (i + mf) = val2 cq mf sinA i := by
  by_cases hm : i = mf - 1
  · rw [val1_mid cq mf sinA _ (by omega), val2_mid cq mf sinA _ (by omega)]
  · rw [val1_neg cq mf sinA _ (by omega) (by omega),
      val2_pos cq mf sinA _ (by omega),
      show min (i + mf - mf) (2 * mf - 2 - (i + mf)) = min i (mf - 2 - i)
        by omega]

/-- Mirror symmetry of the positive half-cycle values of table 1. -/
theorem val1_mirror_pos (cq mf : ℕ) (sinA : ℕ → ℤ) (hmf : 4 ≤ mf) (i : ℕ)
    (hi : i < mf - 2) :
    val1 cq mf sinA i = val1 cq mf sinA (mf - 2 - i) := by
  rw [val1_pos cq mf sinA _ (by omega), val1_pos cq mf sinA _ (by omega),
    show min (mf - 2 - i) (mf - 2 - (mf - 2 - i)) = min i (mf - 2 - i) by omega]

/-- Mirror symmetry of the negative half-cycle values of table 1. -/
theorem val1_mirror_neg (cq mf : ℕ) (sinA : ℕ → ℤ) (hmf : 4 ≤ mf) (i : ℕ)
    (hi : i < mf - 2) :
    val1 cq mf sinA (mf + i) = val1 cq mf sinA (2 * mf - 2 - i) := by
  rw [val1_neg cq mf sinA _ (by omega) (by omega),
    val1_neg cq mf sinA _ (by omega) (by omega),
    show min (2 * mf - 2 - i - mf) (2 * mf - 2 - (2 * mf - 2 - i))
      = min (mf + i - mf) (2 * mf - 2 - (mf + i)) by omega]

/-- Mirror symmetry of the positive half-cycle values of table 2. -/
theorem val2_mirror_pos (cq mf : ℕ) (sinA : ℕ → ℤ) (hmf : 4 ≤ mf) (i : ℕ)
    (hi : i < mf - 2) :
    val2 cq mf sinA i = val2 cq mf sinA (mf - 2 - i) := by
  rw [val2_pos cq mf sinA _ (by omega), val2_pos cq mf sinA _ (by omega),
    show min (mf - 2 - i) (mf - 2 - (mf - 2 - i)) = min i (mf - 2 - i) by omega]

/-- Mirror symmetry of the negative half-cycle values of table 2. -/
theorem val2_mirror_neg (cq mf : ℕ) (sinA : ℕ → ℤ) (hmf : 4 ≤ mf) (i : ℕ)
    (hi : i < mf - 2) :
    val2 cq mf sinA (mf + i) = val2 cq mf sinA (2 * mf - 2 - i) := by
  rw [val2_neg cq mf sinA _ (by omega) (by omega),
    val2_neg cq mf sinA _ (by omega) (by omega),
    show min (2 * mf - 2 - i - mf) (2 * mf - 2 - (2 * mf - 2 - i))
      = min (mf + i - mf) (2 * mf - 2 - (mf + i)) by omega]

/-- Claim C5: for every valid configuration (encoded by `GoodRun`), leg 2's
raw table equals leg 1's raw table phase-shifted by one half-cycle: for every
`i < mf`, `h2_table[i + mf] = h1_table[i]` and `h1_table[i + mf] =
h2_table[i]`. -/
theorem c5_cross_leg (cq mf : ℕ) (sinA : ℕ → ℤ) (h : GoodRun cq mf sinA) :
    ∀ i, i < mf →
      (spwm_unipolar_arrays cq mf sinA (zeroTable mf) (zeroTable mf)
        0 0).h2.get? (i + mf)
        = (spwm_unipolar_arrays cq mf sinA (zeroTable mf) (zeroTable mf)
          0 0).h1.get? i ∧
      (spwm_unipolar_arrays cq mf sinA (zeroTable mf) (zeroTable mf)
        0 0).h1.get? (i + mf)
        = (spwm_unipolar_arrays cq mf sinA (zeroTable mf) (zeroTable mf)
          0 0).h2.get? i := by
  have hmf := h.mf_ge
  intro i hi
  rw [spwm_out_char cq mf sinA _ _ 0 0 (by omega) h.found]
  constructor
  · show (applyW (W2full cq mf sinA) (zeroTable mf)).get? (i + mf)
      = (applyW (W1full cq mf sinA) (zeroTable mf)).get? i
    rw [h2full_get? cq mf sinA hmf h.mf_mod (i + mf) (by omega),
      h1full_get? cq mf sinA hmf h.mf_mod i (by omega),
      val2_shift cq mf sinA hmf i hi]
  · show (applyW (W1full cq mf sinA) (zeroTable mf)).get? (i + mf)
      = (applyW (W2full cq mf sinA) (zeroTable mf)).get? i
    rw [h1full_get? cq mf sinA hmf h.mf_mod (i + mf) (by omega),
      h2full_get? cq mf sinA hmf h.mf_mod i (by omega),
      val1_shift cq mf sinA hmf i hi]

/-- Claim C6: for every valid configuration and each leg's raw table, mirror
symmetry holds across the positive half-cycle (`table[i] = table[mf-2-i]`
for `i < mf-2`) and across the negative half-cycle
(`table[mf+i] = table[2mf-2-i]`). -/
theorem c6_mirror (cq mf : ℕ) (sinA : ℕ → ℤ) (h : GoodRun cq mf sinA) :
    ∀ i, i < mf - 2 →
      (spwm_unipolar_arrays cq mf sinA (zeroTable mf) (zeroTable mf)
        0 0).h1.get? i
        = (spwm_unipolar_arrays cq mf sinA (zeroTable mf) (zeroTable mf)
          0 0).h1.get? (mf - 2 - i) ∧
      (spwm_unipolar_arrays cq mf sinA (zeroTable mf) (zeroTable mf)
        0 0).h1.get? (mf + i)
        = (spwm_unipolar_arrays cq mf sinA (zeroTable mf) (zeroTable mf)
          0 0).h1.get? (2 * mf - 2 - i) ∧
      (spwm_unipolar_arrays cq mf sinA (zeroTable mf) (zeroTable mf)
        0 0).h2.get? i
        = (spwm_unipolar_arrays cq mf sinA (zeroTable mf) (zeroTable mf)
          0 0).h2.get? (mf - 2 - i) ∧
      (spwm_unipolar_arrays cq mf sinA (zeroTable mf) (zeroTable mf)
        0 0).h2.get? (mf + i)
        = (spwm_unipolar_arrays cq mf sinA (zeroTable mf) (zeroTable mf)
          0 0).h2.get? (2 * mf - 2 - i) := by
  have hmf := h.mf_ge
  intro i hi
  rw [spwm_out_char cq mf sinA _ _ 0 0 (by omega) h.found]
  refine ⟨?_, ?_, ?_, ?_⟩
  · show (applyW (W1full cq mf sinA) (zeroTable mf)).get? i = _
    rw [h1full_get? cq mf sinA hmf h.mf_mod i (by omega),
      h1full_get? cq mf sinA hmf h.mf_mod (mf - 2 - i) (by omega),
      val1_mirror_pos cq mf sinA hmf i hi]
  · show (applyW (W1full cq mf sinA) (zeroTable mf)).get? (mf + i) = _
    rw [h1full_get? cq mf sinA hmf h.mf_mod (mf + i) (by omega),
      h1full_get? cq mf sinA hmf h.mf_mod (2 * mf - 2 - i) (by omega),
      val1_mirror_neg cq mf sinA hmf i hi]
  · show (applyW (W2full cq mf sinA) (zeroTable mf)).get? i = _
    rw [h2full_get? cq mf sinA hmf h.mf_mod i (by omega),
      h2full_get? cq mf sinA hmf h.mf_mod (mf - 2 - i) (by omega),
      val2_mirror_pos cq mf sinA hmf i hi]
  · show (applyW (W2full cq mf sinA) (zeroTable mf)).get? (mf + i) = _
    rw [h2full_get? cq mf sinA hmf h.mf_mod (mf + i) (by omega),
      h2full_get? cq mf sinA hmf h.mf_mod (2 * mf - 2 - i) (by omega),
      val2_mirror_neg cq mf sinA hmf i hi]

/-- Claim C7: for every valid configuration, the entries at index `mf-1`
(midpoint, the 90°/270° boundary) and `2mf-1` (endpoint, full-cycle
wraparound) of both legs' raw tables are each the sum of the two legs' raw
sync offsets. -/
theorem c7_midpoint (cq mf : ℕ) (sinA : ℕ → ℤ) (h : GoodRun cq mf sinA) :
    (spwm_unipolar_arrays cq mf sinA (zeroTable mf) (zeroTable mf)
      0 0).h1.get? (mf - 1)
      = some ((spwm_unipolar_arrays cq mf sinA (zeroTable mf) (zeroTable mf)
        0 0).h1_sync
        + (spwm_unipolar_arrays cq mf sinA (zeroTable mf) (zeroTable mf)
          0 0).h2_sync) ∧
    (spwm_unipolar_arrays cq mf sinA (zeroTable mf) (zeroTable mf)
      0 0).h1.get? (2 * mf - 1)
      = some ((spwm_unipolar_arrays cq mf sinA (zeroTable mf) (zeroTable mf)
        0 0).h1_sync
        + (spwm_unipolar_arrays cq mf sinA (zeroTable mf) (zeroTable mf)
          0 0).h2_sync) ∧
    (spwm_unipolar_arrays cq mf sinA (zeroTable mf) (zeroTable mf)
      0 0).h2.get? (mf - 1)
      = some ((spwm_unipolar_arrays cq mf sinA (zeroTable mf) (zeroTable mf)
        0 0).h1_sync
        + (spwm_unipolar_arrays cq mf sinA (zeroTable mf) (zeroTable mf)
          0 0).h2_sync) ∧
    (spwm_unipolar_arrays cq mf sinA (zeroTable mf) (zeroTable mf)
      0 0).h2.get? (2 * mf - 1)
      = some ((spwm_unipolar_arrays cq mf sinA (zeroTable mf) (zeroTable mf)
        0 0).h1_sync
        + (spwm_unipolar_arrays cq mf sinA (zeroTable mf) (zeroTable mf)
          0 0).h2_sync) := by
  have hmf := h.mf_ge
  rw [spwm_out_char cq mf sinA _ _ 0 0 (by omega) h.found]
  refine ⟨?_, ?_, ?_, ?_⟩
  · show (applyW (W1full cq mf sinA) (zeroTable mf)).get? (mf - 1) = _
    rw [h1full_get? cq mf sinA hmf h.mf_mod (mf - 1) (by omega),
      val1_mid cq mf sinA _ (by omega)]
  · show (applyW (W1full cq mf sinA) (zeroTable mf)).get? (2 * mf - 1) = _
    rw [h1full_get? cq mf sinA hmf h.mf_mod (2 * mf - 1) (by omega),
      val1_mid cq mf sinA _ (by omega)]
  · show (applyW (W2full cq mf sinA) (zeroTable mf)).get? (mf - 1) = _
    rw [h2full_get? cq mf sinA hmf h.mf_mod (mf - 1) (by omega),
      val2_mid cq mf sinA _ (by omega)]
  · show (applyW (W2full cq mf sinA) (zeroTable mf)).get? (2 * mf - 1) = _
    rw [h2full_get? cq mf sinA hmf h.mf_mod (2 * mf - 1) (by omega),
      val2_mid cq mf sinA _ (by omega)]

/-! ## The sum invariant (claim C4)

Each half-cycle of either finished table lists the consecutive differences
of one monotone crossing chain, each difference twice, plus the analytic
tail `2 * (quarter_period - last_crossing)` and the boundary value
`T1 0 + T2 0`; the sum telescopes to exactly `4 * quarter_period =
signal_duration`. -/

/-- `signal_duration_quarter` is exactly `cq * mf` (no rounding:
`signal_duration = 4 * cq * mf` is a multiple of 4). -/
theorem signal_duration_quarter_eq (cq mf : ℕ) :
    signal_duration_quarter cq mf = cq * mf := by
  unfold signal_duration_quarter signal_duration carrier_duration
  rw [show 4 * cq * mf = 4 * (cq * mf) by ring]
  exact Nat.mul_div_cancel_left _ (by norm_num)

/-- On a good run the s1 crossing chain is monotone up to its last index. -/
theorem uS1_le_next (cq mf : ℕ) (sinA : ℕ → ℤ) (h : GoodRun cq mf sinA)
    (j : ℕ) (hj : j + 1 ≤ 2 * (mf / 4) - 1) :
    uS1 cq sinA j ≤ uS1 cq sinA (j + 1) := by
  have hN1 : 1 ≤ mf / 4 := by have := h.mf_ge; omega
  obtain ⟨k, hk | hk⟩ := Nat.even_or_odd' j
  · rw [hk] at hj ⊢
    rw [uS1_even, show 2 * k + 1 = 2 * k + 1 from rfl, uS1_odd]
    have hw := T_windows cq mf sinA h k (by omega)
    omega
  · rw [hk] at hj ⊢
    rw [uS1_odd, show 2 * k + 1 + 1 = 2 * (k + 1) by ring, uS1_even]
    have hw1 := T_windows cq mf sinA h k (by omega)
    have hw2 := T_windows cq mf sinA h (k + 1) (by omega)
    have hcd : carrier_duration cq = 4 * cq := rfl
    have hb : (k + 1) * carrier_duration cq
        = k * carrier_duration cq + carrier_duration cq := by ring
    omega

/-- On a good run the s2 crossing chain is monotone up to its last index. -/
theorem vS2_le_next (cq mf : ℕ) (sinA : ℕ → ℤ) (h : GoodRun cq mf sinA)
    (j : ℕ) (hj : j + 1 ≤ 2 * (mf / 4) - 1) :
    vS2 cq sinA j ≤ vS2 cq sinA (j + 1) := by
  have hN1 : 1 ≤ mf / 4 := by have := h.mf_ge; omega
  obtain ⟨k, hk | hk⟩ := Nat.even_or_odd' j
  · rw [hk] at hj ⊢
    rw [vS2_even, show 2 * k + 1 = 2 * k + 1 from rfl, vS2_odd]
    have hw := T_windows cq mf sinA h k (by omega)
    omega
  · rw [hk] at hj ⊢
    rw [vS2_odd, show 2 * k + 1 + 1 = 2 * (k + 1) by ring, vS2_even]
    have hw1 := T_windows cq mf sinA h k (by omega)
    have hw2 := T_windows cq mf sinA h (k + 1) (by omega)
    have hcd : carrier_duration cq = 4 * cq := rfl
    have hb : (k + 1) * carrier_duration cq
        = k * carrier_duration cq + carrier_duration cq := by ring
    omega

/-- Telescoping sum of consecutive differences of a monotone chain. -/
theorem sum_range_sub_tel (g : ℕ → ℕ) :
    ∀ M, (∀ j, j < M → g j ≤ g (j + 1)) →
      (∑ j ∈ Finset.range M, (g (j + 1) - g j)) = g M - g 0 ∧ g 0 ≤ g M := by
  intro M
  induction M with
  | zero => intro _; simp
  | succ M ih =>
    intro hm
    obtain ⟨h1, h2⟩ := ih fun j hj => hm j (by omega)
    rw [Finset.sum_range_succ, h1]
    have h3 := hm M (by omega)
    omega

/-- Sum of a list built by mapping over `List.range`. -/
theorem list_sum_map_range (f : ℕ → ℕ) :
    ∀ k, ((List.range k).map f).sum = ∑ j ∈ Finset.range k, f j := by
  intro k
  induction k with
  | zero => simp
  | succ k ih =>
    rw [List.range_succ, List.map_append, List.sum_append,
      Finset.sum_range_succ, ih]
    simp

/-- Splitting a range sum at an intermediate point. -/
theorem sum_range_add_split (f : ℕ → ℕ) (a b : ℕ) :
    ∑ i ∈ Finset.range (a + b), f i
      = (∑ i ∈ Finset.range a, f i) + ∑ i ∈ Finset.range b, f (a + i) := by
  induction b with
  | zero => simp
  | succ b ih =>
    rw [show a + (b + 1) = (a + b) + 1 from rfl, Finset.sum_range_succ, ih,
      Finset.sum_range_succ]
    omega

/-- Sum of one half-cycle of a finished table: the mirrored layout makes
every chain difference `d j` (for `j < 2(mf/4)-1`) appear exactly twice,
the analytic tail `d (2(mf/4)-1)` once, and the boundary value `S` once. -/
theorem half_sum (mf : ℕ) (g d : ℕ → ℕ) (S : ℕ) (hmf : 4 ≤ mf)
    (hmod : mf % 4 = 0) (hmid : g (mf - 1) = S)
    (hval : ∀ i, i < mf - 1 → g i = d (min i (mf - 2 - i))) :
    ∑ i ∈ Finset.range mf, g i
      = 2 * (∑ j ∈ Finset.range (2 * (mf / 4) - 1), d j)
        + d (2 * (mf / 4) - 1) + S := by
  have hN1 : 1 ≤ mf / 4 := by omega
  have h4 : 4 * (mf / 4) = mf := by omega
  set N := mf / 4 with hN
  have p1 : ∑ i ∈ Finset.Ico 0 (2 * N - 1), g i
      = ∑ j ∈ Finset.range (2 * N - 1), d j := by
    rw [← Finset.range_eq_Ico]
    refine Finset.sum_congr rfl ?_
    intro i hi
    rw [Finset.mem_range] at hi
    rw [hval _ (by omega)]
    congr 1
    omega
  have p2 : ∑ i ∈ Finset.Ico (2 * N - 1) (2 * N), g i = d (2 * N - 1) := by
    rw [Finset.sum_Ico_eq_sum_range,
      show 2 * N - (2 * N - 1) = 1 by omega, Finset.sum_range_one]
    rw [hval _ (by omega)]
    congr 1
    omega
  have p3 : ∑ i ∈ Finset.Ico (2 * N) (mf - 1), g i
      = ∑ j ∈ Finset.range (2 * N - 1), d j := by
    rw [Finset.sum_Ico_eq_sum_range,
      show mf - 1 - 2 * N = 2 * N - 1 by omega]
    have hc : ∀ j ∈ Finset.range (2 * N - 1),
        g (2 * N + j) = d (2 * N - 1 - 1 - j) := by
      intro j hj
      rw [Finset.mem_range] at hj
      rw [hval _ (by omega)]
      congr 1
      omega
    rw [Finset.sum_congr rfl hc]
    exact Finset.sum_range_reflect d (2 * N - 1)
  have p4 : ∑ i ∈ Finset.Ico (mf - 1) mf, g i = S := by
    rw [Finset.sum_Ico_eq_sum_range,
      show mf - (mf - 1) = 1 by omega, Finset.sum_range_one]
    simpa using hmid
  rw [Finset.range_eq_Ico,
    ← Finset.sum_Ico_consecutive g (show 0 ≤ 2 * N - 1 by omega)
      (show 2 * N - 1 ≤ mf by omega),
    ← Finset.sum_Ico_consecutive g (show 2 * N - 1 ≤ 2 * N by omega)
      (show 2 * N ≤ mf by omega),
    ← Finset.sum_Ico_consecutive g (show 2 * N ≤ mf - 1 by omega)
      (show mf - 1 ≤ mf by omega),
    p1, p2, p3, p4]
  simp only [Finset.range_eq_Ico]
  ring

/-- The s1 chain differences sum (telescope) to `T4 (mf/4-1) - T1 0`. -/
theorem sum_dU (cq mf : ℕ) (sinA : ℕ → ℤ) (h : GoodRun cq mf sinA) :
    (∑ j ∈ Finset.range (2 * (mf / 4) - 1), dU cq mf sinA j)
      = T4 cq sinA (mf / 4 - 1) - T1 cq sinA 0 ∧
    T1 cq sinA 0 ≤ T4 cq sinA (mf / 4 - 1) := by
  have hN1 : 1 ≤ mf / 4 := by have := h.mf_ge; omega
  have hc : ∀ j ∈ Finset.range (2 * (mf / 4) - 1),
      dU cq mf sinA j = uS1 cq sinA (j + 1) - uS1 cq sinA j := by
    intro j hj
    rw [Finset.mem_range] at hj
    unfold dU
    rw [if_neg (by omega)]
  rw [Finset.sum_congr rfl hc]
  have htel := sum_range_sub_tel (uS1 cq sinA) (2 * (mf / 4) - 1)
    (fun j hj => uS1_le_next cq mf sinA h j (by omega))
  have hu0 : uS1 cq sinA 0 = T1 cq sinA 0 := by
    have he := uS1_even cq sinA 0
    simpa using he
  have huM : uS1 cq sinA (2 * (mf / 4) - 1) = T4 cq sinA (mf / 4 - 1) := by
    rw [show 2 * (mf / 4) - 1 = 2 * (mf / 4 - 1) + 1 by omega, uS1_odd]
  rw [hu0, huM] at htel
  exact htel

/-- The s2 chain differences sum (telescope) to `T3 (mf/4-1) - T2 0`. -/
theorem sum_dV (cq mf : ℕ) (sinA : ℕ → ℤ) (h : GoodRun cq mf sinA) :
    (∑ j ∈ Finset.range (2 * (mf / 4) - 1), dV cq mf sinA j)
      = T3 cq sinA (mf / 4 - 1) - T2 cq sinA 0 ∧
    T2 cq sinA 0 ≤ T3 cq sinA (mf / 4 - 1) := by
  have hN1 : 1 ≤ mf / 4 := by have := h.mf_ge; omega
  have hc : ∀ j ∈ Finset.range (2 * (mf / 4) - 1),
      dV cq mf sinA j = vS2 cq sinA (j + 1) - vS2 cq sinA j := by
    intro j hj
    rw [Finset.mem_range] at hj
    unfold dV
    rw [if_neg (by omega)]
  rw [Finset.sum_congr rfl hc]
  have htel := sum_range_sub_tel (vS2 cq sinA) (2 * (mf / 4) - 1)
    (fun j hj => vS2_le_next cq mf sinA h j (by omega))
  have hv0 : vS2 cq sinA 0 = T2 cq sinA 0 := by
    have he := vS2_even cq sinA 0
    simpa using he
  have hvM : vS2 cq sinA (2 * (mf / 4) - 1) = T3 cq sinA (mf / 4 - 1) := by
    rw [show 2 * (mf / 4) - 1 = 2 * (mf / 4 - 1) + 1 by omega, vS2_odd]
  rw [hv0, hvM] at htel
  exact htel

/-- Finished table 1 as a map over `List.range`. -/
theorem h1full_eq_map (cq mf : ℕ) (sinA : ℕ → ℤ) (hmf : 4 ≤ mf)
    (hmod : mf % 4 = 0) :
    applyW (W1full cq mf sinA) (zeroTable mf)
      = (List.range (2 * mf)).map (val1 cq mf sinA) := by
  apply List.ext_get?'
  intro i hi
  rw [applyW_length] at hi
  unfold zeroTable at hi
  rw [List.length_replicate, List.length_map, List.length_range] at hi
  have hi2 : i < 2 * mf := by omega
  rw [h1full_get? cq mf sinA hmf hmod i hi2, List.get?_map,
    List.get?_range hi2]
  rfl

/-- Finished table 2 as a map over `List.range`. -/
theorem h2full_eq_map (cq mf : ℕ) (sinA : ℕ → ℤ) (hmf : 4 ≤ mf)
    (hmod : mf % 4 = 0) :
    applyW (W2full cq mf sinA) (zeroTable mf)
      = (List.range (2 * mf)).map (val2 cq mf sinA) := by
  apply List.ext_get?'
  intro i hi
  rw [applyW_length] at hi
  unfold zeroTable at hi
  rw [List.length_replicate, List.length_map, List.length_range] at hi
  have hi2 : i < 2 * mf := by omega
  rw [h2full_get? cq mf sinA hmf hmod i hi2, List.get?_map,
    List.get?_range hi2]
  rfl

/-- Claim C4: for every valid configuration (encoded by `GoodRun`), the sum
of all `2*mf` entries of either raw synthesized table equals exactly the
total signal period returned by `spwm_unipolar_arrays`. -/
theorem c4_sum_invariant (cq mf : ℕ) (sinA : ℕ → ℤ)
    (h : GoodRun cq mf sinA) :
    (spwm_unipolar_arrays cq mf sinA (zeroTable mf) (zeroTable mf)
      0 0).h1.sum
      = (spwm_unipolar_arrays cq mf sinA (zeroTable mf) (zeroTable mf)
        0 0).signal_duration ∧
    (spwm_unipolar_arrays cq mf sinA (zeroTable mf) (zeroTable mf)
      0 0).h2.sum
      = (spwm_unipolar_arrays cq mf sinA (zeroTable mf) (zeroTable mf)
        0 0).signal_duration := by
  have hmf := h.mf_ge
  have hmod := h.mf_mod
  have hN1 : 1 ≤ mf / 4 := by omega
  rw [spwm_out_char cq mf sinA _ _ 0 0 hN1 h.found]
  show (applyW (W1full cq mf sinA) (zeroTable mf)).sum
      = signal_duration cq mf
    ∧ (applyW (W2full cq mf sinA) (zeroTable mf)).sum
      = signal_duration cq mf
  rw [h1full_eq_map cq mf sinA hmf hmod, h2full_eq_map cq mf sinA hmf hmod,
    list_sum_map_range, list_sum_map_range]
  have hw := T_windows cq mf sinA h (mf / 4 - 1) (by omega)
  have hcd : carrier_duration cq = 4 * cq := rfl
  have hb : (mf / 4 - 1) * carrier_duration cq + carrier_duration cq
      = cq * mf := by
    rw [hcd]
    calc (mf / 4 - 1) * (4 * cq) + 4 * cq
        = (mf / 4 - 1 + 1) * (4 * cq) := by ring
      _ = (mf / 4) * (4 * cq) := by
          rw [show mf / 4 - 1 + 1 = mf / 4 by omega]
      _ = cq * (4 * (mf / 4)) := by ring
      _ = cq * mf := by rw [show 4 * (mf / 4) = mf by omega]
  have hQ4 : T4 cq sinA (mf / 4 - 1) < cq * mf := by
    rw [← hb]
    omega
  have hQ3 : T3 cq sinA (mf / 4 - 1) < cq * mf := by
    rw [← hb]
    omega
  have hsd : signal_duration cq mf = 4 * (cq * mf) := by
    unfold signal_duration carrier_duration
    ring
  have hq := signal_duration_quarter_eq cq mf
  obtain ⟨hdu, hdu_le⟩ := sum_dU cq mf sinA h
  obtain ⟨hdv, hdv_le⟩ := sum_dV cq mf sinA h
  have hlu := dU_last cq mf sinA hN1
  have hlv := dV_last cq mf sinA hN1
  constructor
  · rw [show 2 * mf = mf + mf by ring,
      sum_range_add_split (val1 cq mf sinA) mf mf]
    rw [half_sum mf (val1 cq mf sinA) (dU cq mf sinA)
      (T1 cq sinA 0 + T2 cq sinA 0) hmf hmod
      (val1_mid cq mf sinA (mf - 1) (Or.inl rfl))
      (fun i hi => val1_pos cq mf sinA i hi)]
    rw [half_sum mf (fun i => val1 cq mf sinA (mf + i)) (dV cq mf sinA)
      (T1 cq sinA 0 + T2 cq sinA 0) hmf hmod
      (by show val1 cq mf sinA (mf + (mf - 1)) = T1 cq sinA 0 + T2 cq sinA 0
          rw [show mf + (mf - 1) = 2 * mf - 1 by omega]
          exact val1_mid cq mf sinA (2 * mf - 1) (Or.inr rfl))
      (fun i hi => by
        show val1 cq mf sinA (mf + i)
          = dV cq mf sinA (min i (mf - 2 - i))
        rw [val1_neg cq mf sinA (mf + i) (by omega) (by omega)]
        congr 1
        omega)]
    rw [hdu, hdv, hlu, hlv, hq]
    omega
  · rw [show 2 * mf = mf + mf by ring,
      sum_range_add_split (val2 cq mf sinA) mf mf]
    rw [half_sum mf (val2 cq mf sinA) (dV cq mf sinA)
      (T1 cq sinA 0 + T2 cq sinA 0) hmf hmod
      (val2_mid cq mf sinA (mf - 1) (Or.inl rfl))
      (fun i hi => val2_pos cq mf sinA i hi)]
    rw [half_sum mf (fun i => val2 cq mf sinA (mf + i)) (dU cq mf sinA)
      (T1 cq sinA 0 + T2 cq sinA 0) hmf hmod
      (by show val2 cq mf sinA (mf + (mf - 1)) = T1 cq sinA 0 + T2 cq sinA 0
          rw [show mf + (mf - 1) = 2 * mf - 1 by omega]
          exact val2_mid cq mf sinA (2 * mf - 1) (Or.inr rfl))
      (fun i hi => by
        show val2 cq mf sinA (mf + i)
          = dU cq mf sinA (min i (mf - 2 - i))
        rw [val2_neg cq mf sinA (mf + i) (by omega) (by omega)]
        congr 1
        omega)]
    rw [hdu, hdv, hlu, hlv, hq]
    omega

/-! ## Loop accounting (termination / outer-iteration count) -/

theorem captureQ1_cycles (cq n : ℕ) (st : SpwmState) :
    (captureQ1 cq n st).cycles = st.cycles := by
  unfold captureQ1; split <;> rfl

theorem captureQ2_cycles (cq mf n : ℕ) (st : SpwmState) :
    (captureQ2 cq mf n st).cycles = st.cycles := by
  unfold captureQ2; split <;> rfl

theorem captureQ3_cycles (cq n : ℕ) (st : SpwmState) :
    (captureQ3 cq n st).cycles = st.cycles := rfl

theorem captureQ4_cycles (cq n : ℕ) (st : SpwmState) :
    (captureQ4 cq n st).cycles = st.cycles := rfl

theorem searchGo_cycles (bound : ℕ) (cond : ℕ → ℕ → Bool)
    (upd : SpwmState → SpwmState)
    (hupd : ∀ s : SpwmState, (upd s).cycles = s.cycles) :
    ∀ fuel st, (searchGo bound cond upd fuel st).cycles = st.cycles := by
  intro fuel
  induction fuel with
  | zero => intro st; rfl
  | succ fuel ih =>
    intro st
    simp only [searchGo]
    split
    · split
      · exact hupd st
      · exact ih _
    · rfl

theorem cycleBody_cycles (cq mf : ℕ) (sinA : ℕ → ℤ) (n : ℕ) (st : SpwmState) :
    (cycleBody cq mf sinA n st).cycles = st.cycles + 1 := by
  simp only [cycleBody, searchLoop]
  rw [searchGo_cycles _ _ _ (captureQ4_cycles cq n),
    searchGo_cycles _ _ _ (captureQ3_cycles cq n),
    searchGo_cycles _ _ _ (captureQ2_cycles cq mf n),
    searchGo_cycles _ _ _ (captureQ1_cycles cq n)]

theorem runTo_cycles (cq mf : ℕ) (sinA : ℕ → ℤ) (st0 : SpwmState) :
    ∀ n, (runTo cq mf sinA st0 n).cycles = st0.cycles + n := by
  intro n
  induction n with
  | zero => rfl
  | succ n ih =>
    show (cycleBody cq mf sinA n (runTo cq mf sinA st0 n)).cycles = _
    rw [cycleBody_cycles, ih]
    omega

/-- The outer loop of `spwm_unipolar_arrays` performs exactly `mf/4`
iterations, for every input. -/
theorem spwm_cycles (cq mf : ℕ) (sinA : ℕ → ℤ) (l1 l2 : List ℕ)
    (h1s h2s : ℕ) :
    (spwm_unipolar_arrays cq mf sinA l1 l2 h1s h2s).cycles = mf / 4 := by
  show (finalStores cq mf _).cycles = mf / 4
  unfold finalStores
  show (runTo cq mf sinA (initState mf l1 l2 h1s h2s) (mf / 4)).cycles = mf / 4
  rw [runTo_cycles]
  simp [initState]

theorem captureQ1_tri (cq n : ℕ) (st : SpwmState) :
    (captureQ1 cq n st).tri = cq := by
  unfold captureQ1; split <;> rfl

theorem captureQ2_tri (cq mf n : ℕ) (st : SpwmState) :
    (captureQ2 cq mf n st).tri = 2 * cq := by
  unfold captureQ2; split <;> rfl

theorem captureQ3_tri (cq n : ℕ) (st : SpwmState) :
    (captureQ3 cq n st).tri = 3 * cq := rfl

theorem captureQ4_tri (cq n : ℕ) (st : SpwmState) :
    (captureQ4 cq n st).tri = 4 * cq := rfl

/-- The inner while loop always drives `tri_time_counter` up to its bound:
each iteration either increments it or (on capture) sets it to the bound. -/
theorem searchGo_tri (bound : ℕ) (cond : ℕ → ℕ → Bool)
    (upd : SpwmState → SpwmState)
    (hupd : ∀ s : SpwmState, (upd s).tri = bound) :
    ∀ fuel st, fuel = bound - st.tri → st.tri ≤ bound →
      (searchGo bound cond upd fuel st).tri = bound := by
  intro fuel
  induction fuel with
  | zero =>
    intro st hfuel hle
    show st.tri = bound
    omega
  | succ fuel ih =>
    intro st hfuel hle
    simp only [searchGo]
    split
    · split
      · exact hupd st
      · exact ih _ (by simp; omega) (by simp; omega)
    · show st.tri = bound
      omega

theorem searchLoop_tri (bound : ℕ) (cond : ℕ → ℕ → Bool)
    (upd : SpwmState → SpwmState)
    (hupd : ∀ s : SpwmState, (upd s).tri = bound)
    (st : SpwmState) (hle : st.tri ≤ bound) :
    (searchLoop bound cond upd st).tri = bound :=
  searchGo_tri bound cond upd hupd _ st rfl hle

/-! ## Witness configuration

A small concrete configuration (`cq = 4`, `mf = 4`) with a constant oracle
satisfying every `GoodRun` requirement; used to instantiate the theorems
below at a concrete input. -/

def wOracle : ℕ → ℤ := fun _ => 500000

theorem wOracle_good : GoodRun 4 4 wOracle := by
  refine ⟨by decide, by decide, by decide, by decide, ?_, ?_, ?_, ?_⟩
  · intro t
    show (500000 : ℤ).natAbs < scaling_factor
    decide
  · intro n hn
    show (0 : ℤ) ≤ 500000
    decide
  · intro n hn
    show (0 : ℤ) ≤ 500000
    decide
  · intro n hn
    have h0 : n = 0 := by omega
    subst h0
    decide

/-- Claim C2 (counterexample): `spwm_unipolar_arrays` performs no parameter
validation and does not fail on invalid configurations.  With `mf = 2`
(not a multiple of 4) it runs to completion, computes table entries (the
result differs from the untouched zero-initialised buffer) and returns the
usual `signal_duration` — it does not reject the configuration before table
computation. -/
theorem c2_counterexample :
    (2 : ℕ) % 4 ≠ 0 ∧
    (spwm_unipolar_arrays 10 2 (fun _ => 0) (zeroTable 2) (zeroTable 2)
      0 0).signal_duration = 80 ∧
    (spwm_unipolar_arrays 10 2 (fun _ => 0) (zeroTable 2) (zeroTable 2)
      0 0).h1 = [40, 0, 40, 0] ∧
    (spwm_unipolar_arrays 10 2 (fun _ => 0) (zeroTable 2) (zeroTable 2)
      0 0).h1 ≠ zeroTable 2 := by
  refine ⟨by decide, by decide, by decide, by decide⟩

/-- Claim C2 (amended): the synthesis function validates nothing: for every
input — including `mf` not a multiple of 4 and any amplitude oracle — it
proceeds to compute, runs exactly `mf/4` carrier cycles, and returns
`signal_duration`.  Callers must ensure `mf` is a positive multiple of 4 and
`0 < ma < 1` themselves. -/
theorem c2_no_validation (cq mf : ℕ) (sinA : ℕ → ℤ) (l1 l2 : List ℕ)
    (h1s h2s : ℕ) :
    (spwm_unipolar_arrays cq mf sinA l1 l2 h1s h2s).signal_duration
      = signal_duration cq mf ∧
    (spwm_unipolar_arrays cq mf sinA l1 l2 h1s h2s).cycles = mf / 4 :=
  ⟨rfl, spwm_cycles cq mf sinA l1 l2 h1s h2s⟩

/-- Claim C10: for every valid input, `spwm_unipolar_arrays` terminates: the
outer loop runs exactly `mf/4` iterations, and each of the four inner search
loops drives `tri_time_counter` exactly to its quarter bound — every
iteration either increments it by one or (on capture) sets it to the bound. -/
theorem c10_termination (cq mf : ℕ) (sinA : ℕ → ℤ) (l1 l2 : List ℕ)
    (h1s h2s : ℕ) (hmf : 4 ≤ mf) (hmod : mf % 4 = 0) :
    (spwm_unipolar_arrays cq mf sinA l1 l2 h1s h2s).cycles = mf / 4 ∧
    (∀ n (st : SpwmState), st.tri ≤ cq →
      (searchLoop cq (condQ1 cq sinA) (captureQ1 cq n) st).tri = cq) ∧
    (∀ n (st : SpwmState), st.tri ≤ 2 * cq →
      (searchLoop (2 * cq) (condQ2 cq sinA) (captureQ2 cq mf n) st).tri
        = 2 * cq) ∧
    (∀ n (st : SpwmState), st.tri ≤ 3 * cq →
      (searchLoop (3 * cq) (condQ3 cq sinA) (captureQ3 cq n) st).tri
        = 3 * cq) ∧
    (∀ n (st : SpwmState), st.tri ≤ 4 * cq →
      (searchLoop (4 * cq) (condQ4 cq sinA) (captureQ4 cq n) st).tri
        = 4 * cq) := by
  refine ⟨spwm_cycles cq mf sinA l1 l2 h1s h2s, ?_, ?_, ?_, ?_⟩
  · intro n st hle
    exact searchLoop_tri _ _ _ (captureQ1_tri cq n) st hle
  · intro n st hle
    exact searchLoop_tri _ _ _ (captureQ2_tri cq mf n) st hle
  · intro n st hle
    exact searchLoop_tri _ _ _ (captureQ3_tri cq n) st hle
  · intro n st hle
    exact searchLoop_tri _ _ _ (captureQ4_tri cq n) st hle

/-- Claim C10 (witness): concrete instance at the witness configuration. -/
theorem c10_termination_witness :
    (spwm_unipolar_arrays 4 4 wOracle (zeroTable 4) (zeroTable 4)
      0 0).cycles = 4 / 4 ∧
    (searchLoop 4 (condQ1 4 wOracle) (captureQ1 4 0)
      (initState 4 (zeroTable 4) (zeroTable 4) 0 0)).tri = 4 :=
  ⟨(c10_termination 4 4 wOracle (zeroTable 4) (zeroTable 4) 0 0
      (by decide) (by decide)).1,
   (c10_termination 4 4 wOracle (zeroTable 4) (zeroTable 4) 0 0
      (by decide) (by decide)).2.1 0 _ (by decide)⟩

/-- Claim C5 (witness): concrete instance at the witness configuration. -/
theorem c5_cross_leg_witness :
    (spwm_unipolar_arrays 4 4 wOracle (zeroTable 4) (zeroTable 4)
      0 0).h2.get? (0 + 4)
      = (spwm_unipolar_arrays 4 4 wOracle (zeroTable 4) (zeroTable 4)
        0 0).h1.get? 0 ∧
    (spwm_unipolar_arrays 4 4 wOracle (zeroTable 4) (zeroTable 4)
      0 0).h1.get? (0 + 4)
      = (spwm_unipolar_arrays 4 4 wOracle (zeroTable 4) (zeroTable 4)
        0 0).h2.get? 0 :=
  c5_cross_leg 4 4 wOracle wOracle_good 0 (by decide)

/-- Claim C6 (witness): concrete instance at the witness configuration. -/
theorem c6_mirror_witness :
    (spwm_unipolar_arrays 4 4 wOracle (zeroTable 4) (zeroTable 4)
      0 0).h1.get? 0
      = (spwm_unipolar_arrays 4 4 wOracle (zeroTable 4) (zeroTable 4)
        0 0).h1.get? (4 - 2 - 0) ∧
    (spwm_unipolar_arrays 4 4 wOracle (zeroTable 4) (zeroTable 4)
      0 0).h1.get? (4 + 0)
      = (spwm_unipolar_arrays 4 4 wOracle (zeroTable 4) (zeroTable 4)
        0 0).h1.get? (2 * 4 - 2 - 0) ∧
    (spwm_unipolar_arrays 4 4 wOracle (zeroTable 4) (zeroTable 4)
      0 0).h2.get? 0
      = (spwm_unipolar_arrays 4 4 wOracle (zeroTable 4) (zeroTable 4)
        0 0).h2.get? (4 - 2 - 0) ∧
    (spwm_unipolar_arrays 4 4 wOracle (zeroTable 4) (zeroTable 4)
      0 0).h2.get? (4 + 0)
      = (spwm_unipolar_arrays 4 4 wOracle (zeroTable 4) (zeroTable 4)
        0 0).h2.get? (2 * 4 - 2 - 0) :=
  c6_mirror 4 4 wOracle wOracle_good 0 (by decide)

/-- Claim C7 (witness): concrete instance at the witness configuration. -/
theorem c7_midpoint_witness :
    (spwm_unipolar_arrays 4 4 wOracle (zeroTable 4) (zeroTable 4)
      0 0).h1.get? (4 - 1)
      = some ((spwm_unipolar_arrays 4 4 wOracle (zeroTable 4) (zeroTable 4)
        0 0).h1_sync
        + (spwm_unipolar_arrays 4 4 wOracle (zeroTable 4) (zeroTable 4)
          0 0).h2_sync) ∧
    (spwm_unipolar_arrays 4 4 wOracle (zeroTable 4) (zeroTable 4)
      0 0).h1.get? (2 * 4 - 1)
      = some ((spwm_unipolar_arrays 4 4 wOracle (zeroTable 4) (zeroTable 4)
        0 0).h1_sync
        + (spwm_unipolar_arrays 4 4 wOracle (zeroTable 4) (zeroTable 4)
          0 0).h2_sync) ∧
    (spwm_unipolar_arrays 4 4 wOracle (zeroTable 4) (zeroTable 4)
      0 0).h2.get? (4 - 1)
      = some ((spwm_unipolar_arrays 4 4 wOracle (zeroTable 4) (zeroTable 4)
        0 0).h1_sync
        + (spwm_unipolar_arrays 4 4 wOracle (zeroTable 4) (zeroTable 4)
          0 0).h2_sync) ∧
    (spwm_unipolar_arrays 4 4 wOracle (zeroTable 4) (zeroTable 4)
      0 0).h2.get? (2 * 4 - 1)
      = some ((spwm_unipolar_arrays 4 4 wOracle (zeroTable 4) (zeroTable 4)
        0 0).h1_sync
        + (spwm_unipolar_arrays 4 4 wOracle (zeroTable 4) (zeroTable 4)
          0 0).h2_sync) :=
  c7_midpoint 4 4 wOracle wOracle_good

theorem c4_sum_invariant_witness :
    (spwm_unipolar_arrays 4 4 wOracle (zeroTable 4) (zeroTable 4)
      0 0).h1.sum
      = (spwm_unipolar_arrays 4 4 wOracle (zeroTable 4) (zeroTable 4)
        0 0).signal_duration ∧
    (spwm_unipolar_arrays 4 4 wOracle (zeroTable 4) (zeroTable 4)
      0 0).h2.sum
      = (spwm_unipolar_arrays 4 4 wOracle (zeroTable 4) (zeroTable 4)
        0 0).signal_duration :=
  c4_sum_invariant 4 4 wOracle wOracle_good

theorem mem_of_mem_lastElem {α : Type} {l : List α} {x : α}
    (h : x ∈ l.getLast?) : x ∈ l := by
  obtain ⟨hne, rfl⟩ := List.mem_getLast?_eq_getLast h
  exact List.getLast_mem hne

/-- The ghost crossing trace after `n` cycles: every capture lies in its
quarter window, the trace is strictly increasing in time, and all times lie
below `n * carrier_duration`. -/
theorem crossingsTo_spec (cq mf : ℕ) (sinA : ℕ → ℤ) (h : GoodRun cq mf sinA) :
    ∀ n, n ≤ mf / 4 →
      (∀ p ∈ crossingsTo cq sinA n,
        p.1 < mf / 4 ∧ p.2.1 < 4 ∧
        p.1 * carrier_duration cq + p.2.1 * cq ≤ p.2.2 ∧
        p.2.2 < p.1 * carrier_duration cq + (p.2.1 + 1) * cq) ∧
      (crossingsTo cq sinA n).Chain' (fun a b => a.2.2 < b.2.2) ∧
      (∀ p ∈ crossingsTo cq sinA n, p.2.2 < n * carrier_duration cq) := by
  intro n
  induction n with
  | zero =>
    intro _
    refine ⟨?_, ?_, ?_⟩ <;> simp [crossingsTo]
  | succ n ih =>
    intro hn
    obtain ⟨ihw, ihc, ihb⟩ := ih (by omega)
    obtain ⟨w1, w2, w3, w4⟩ := T_windows cq mf sinA h n (by omega)
    have hstep : (n + 1) * carrier_duration cq
        = n * carrier_duration cq + carrier_duration cq := by ring
    have hcd : carrier_duration cq = 4 * cq := rfl
    refine ⟨?_, ?_, ?_⟩
    · intro p hp
      rw [show crossingsTo cq sinA (n + 1) = crossingsTo cq sinA n ++
        [(n, 0, T1 cq sinA n), (n, 1, T2 cq sinA n),
         (n, 2, T3 cq sinA n), (n, 3, T4 cq sinA n)] from rfl,
        List.mem_append] at hp
      rcases hp with hp | hp
      · exact ihw p hp
      · simp only [List.mem_cons, List.not_mem_nil, or_false] at hp
        rcases hp with rfl | rfl | rfl | rfl <;> dsimp only <;>
          refine ⟨by omega, by omega, by omega, by omega⟩
    · rw [show crossingsTo cq sinA (n + 1) = crossingsTo cq sinA n ++
        [(n, 0, T1 cq sinA n), (n, 1, T2 cq sinA n),
         (n, 2, T3 cq sinA n), (n, 3, T4 cq sinA n)] from rfl,
        List.chain'_append]
      refine ⟨ihc, ?_, ?_⟩
      · simp only [List.chain'_cons, List.chain'_singleton, and_true]
        refine ⟨by omega, by omega, by omega⟩
      · intro x hx y hy
        simp only [List.head?_cons, Option.mem_def, Option.some.injEq] at hy
        subst hy
        have hxm := mem_of_mem_lastElem hx
        have := ihb x hxm
        show x.2.2 < T1 cq sinA n
        omega
    · intro p hp
      rw [show crossingsTo cq sinA (n + 1) = crossingsTo cq sinA n ++
        [(n, 0, T1 cq sinA n), (n, 1, T2 cq sinA n),
         (n, 2, T3 cq sinA n), (n, 3, T4 cq sinA n)] from rfl,
        List.mem_append] at hp
      rcases hp with hp | hp
      · have := ihb p hp
        omega
      · simp only [List.mem_cons, List.not_mem_nil, or_false] at hp
        rcases hp with rfl | rfl | rfl | rfl <;> dsimp only <;> omega

/-- Claim C8: for every valid configuration, every captured crossing tick of
quarter `q` of carrier cycle `n` lies within that quarter's tick window
`[n*carrier_duration + q*cq, n*carrier_duration + (q+1)*cq)`, and the
captured crossing ticks over the whole search strictly increase. -/
theorem c8_crossing_monotonic (cq mf : ℕ) (sinA : ℕ → ℤ)
    (h : GoodRun cq mf sinA) :
    (∀ p ∈ (spwm_unipolar_arrays cq mf sinA (zeroTable mf) (zeroTable mf)
        0 0).crossings,
      p.1 < mf / 4 ∧ p.2.1 < 4 ∧
      p.1 * carrier_duration cq + p.2.1 * cq ≤ p.2.2 ∧
      p.2.2 < p.1 * carrier_duration cq + (p.2.1 + 1) * cq) ∧
    (spwm_unipolar_arrays cq mf sinA (zeroTable mf) (zeroTable mf)
      0 0).crossings.Chain' (fun a b => a.2.2 < b.2.2) := by
  have hmf := h.mf_ge
  rw [spwm_out_char cq mf sinA _ _ 0 0 (by omega) h.found]
  obtain ⟨hw, hc, _⟩ := crossingsTo_spec cq mf sinA h (mf / 4) (le_refl _)
  exact ⟨hw, hc⟩

/-- Claim C8 (witness): at the witness configuration the first captured
crossing is `(cycle 0, quarter 0, tick 2)`, inside its window, and the
whole concrete trace is strictly increasing. -/
theorem c8_crossing_monotonic_witness :
    ((0, 0, 2) ∈ (spwm_unipolar_arrays 4 4 wOracle (zeroTable 4)
      (zeroTable 4) 0 0).crossings ∧
     0 * carrier_duration 4 + 0 * 4 ≤ 2 ∧
     2 < 0 * carrier_duration 4 + (0 + 1) * 4) ∧
    (spwm_unipolar_arrays 4 4 wOracle (zeroTable 4) (zeroTable 4)
      0 0).crossings.Chain' (fun a b => a.2.2 < b.2.2) :=
  ⟨⟨by decide,
    ((c8_crossing_monotonic 4 4 wOracle wOracle_good).1 (0, 0, 2)
      (by decide)).2.2.1,
    ((c8_crossing_monotonic 4 4 wOracle wOracle_good).1 (0, 0, 2)
      (by decide)).2.2.2⟩,
   (c8_crossing_monotonic 4 4 wOracle wOracle_good).2⟩

/-- Every store index recorded in `W1` is inside the table. -/
theorem W1_idx_lt (cq mf : ℕ) (sinA : ℕ → ℤ) (hmf : 4 ≤ mf)
    (hmod : mf % 4 = 0) :
    ∀ n, n ≤ mf / 4 → ∀ p ∈ W1 cq mf sinA n, p.1 < 2 * mf := by
  intro n
  induction n with
  | zero => intro _ p hp; simp [W1] at hp
  | succ n ih =>
    intro hn p hp
    rw [show W1 cq mf sinA (n + 1)
      = W1 cq mf sinA n ++ block1 cq mf sinA n from rfl,
      List.mem_append] at hp
    rcases hp with hp | hp
    · exact ih (by omega) p hp
    · unfold block1 at hp
      split at hp <;>
        simp only [List.mem_cons, List.not_mem_nil, or_false] at hp <;>
        (first
          | (rcases hp with rfl | rfl | rfl | rfl | rfl | rfl | rfl | rfl)
          | (rcases hp with rfl | rfl | rfl | rfl | rfl | rfl)) <;>
        dsimp only <;> omega

/-- Every store index recorded in `W2` is inside the table. -/
theorem W2_idx_lt (cq mf : ℕ) (sinA : ℕ → ℤ) (hmf : 4 ≤ mf)
    (hmod : mf % 4 = 0) :
    ∀ n, n ≤ mf / 4 → ∀ p ∈ W2 cq mf sinA n, p.1 < 2 * mf := by
  intro n
  induction n with
  | zero => intro _ p hp; simp [W2] at hp
  | succ n ih =>
    intro hn p hp
    rw [show W2 cq mf sinA (n + 1)
      = W2 cq mf sinA n ++ block2 cq mf sinA n from rfl,
      List.mem_append] at hp
    rcases hp with hp | hp
    · exact ih (by omega) p hp
    · unfold block2 at hp
      split at hp <;>
        simp only [List.mem_cons, List.not_mem_nil, or_false] at hp <;>
        (first
          | (rcases hp with rfl | rfl | rfl | rfl | rfl | rfl | rfl | rfl)
          | (rcases hp with rfl | rfl | rfl | rfl | rfl | rfl)) <;>
        dsimp only <;> omega

/-- Every entry written during the first `n` cycles is recorded in `W1`. -/
theorem W1_idx_cover (cq mf : ℕ) (sinA : ℕ → ℤ) (hmf : 4 ≤ mf)
    (hmod : mf % 4 = 0) :
    ∀ n, n ≤ mf / 4 → ∀ i, wrAt mf n i →
      ∃ v, (i, v) ∈ W1 cq mf sinA n := by
  intro n
  induction n with
  | zero =>
    intro _ i hw
    exfalso
    unfold wrAt cnt at hw
    omega
  | succ n ih =>
    intro hn i hw
    rcases Nat.eq_zero_or_pos n with hn0 | hn1
    · subst hn0
      have hsplit : i = mf - 1 ∨ i = 2 * mf - 1 ∨ i = mf ∨
          i = 2 * mf - 2 ∨ i = 0 ∨ i = mf - 2 := by
        unfold wrAt cnt at hw
        omega
      rcases hsplit with rfl | rfl | rfl | rfl | rfl | rfl
      · exact ⟨T1 cq sinA 0 + T2 cq sinA 0, by simp [W1, block1]⟩
      · exact ⟨T1 cq sinA 0 + T2 cq sinA 0, by simp [W1, block1]⟩
      · exact ⟨T3 cq sinA 0 - T2 cq sinA 0, by simp [W1, block1]⟩
      · exact ⟨T3 cq sinA 0 - T2 cq sinA 0, by simp [W1, block1]⟩
      · exact ⟨T4 cq sinA 0 - T1 cq sinA 0, by simp [W1, block1]⟩
      · exact ⟨T4 cq sinA 0 - T1 cq sinA 0, by simp [W1, block1]⟩
    · have hn0 : ¬ n = 0 := by omega
      have hsplit : wrAt mf n i ∨ i = 2 * n - 1 ∨ i = mf - 2 - (2 * n - 1) ∨
          i = mf + (2 * n - 1) ∨ i = 2 * mf - 2 - (2 * n - 1) ∨
          i = mf + (2 * n - 1) + 1 ∨ i = 2 * mf - 2 - (2 * n - 1) - 1 ∨
          i = 2 * n - 1 + 1 ∨ i = mf - 2 - (2 * n - 1) - 1 := by
        unfold wrAt cnt at hw ⊢
        omega
      have happ : W1 cq mf sinA (n + 1)
          = W1 cq mf sinA n ++ block1 cq mf sinA n := rfl
      rcases hsplit with hw' | rfl | rfl | rfl | rfl | rfl | rfl | rfl | rfl
      · obtain ⟨v, hv⟩ := ih (by omega) i hw'
        exact ⟨v, by rw [happ]; exact List.mem_append_left _ hv⟩
      · exact ⟨T1 cq sinA n - T4 cq sinA (n - 1), by
          rw [happ]
          refine List.mem_append_right _ ?_
          unfold block1
          rw [if_neg hn0]
          simp⟩
      · exact ⟨T1 cq sinA n - T4 cq sinA (n - 1), by
          rw [happ]
          refine List.mem_append_right _ ?_
          unfold block1
          rw [if_neg hn0]
          simp⟩
      · exact ⟨T2 cq sinA n - T3 cq sinA (n - 1), by
          rw [happ]
          refine List.mem_append_right _ ?_
          unfold block1
          rw [if_neg hn0]
          simp⟩
      · exact ⟨T2 cq sinA n - T3 cq sinA (n - 1), by
          rw [happ]
          refine List.mem_append_right _ ?_
          unfold block1
          rw [if_neg hn0]
          simp⟩
      · exact ⟨T3 cq sinA n - T2 cq sinA n, by
          rw [happ]
          refine List.mem_append_right _ ?_
          unfold block1
          rw [if_neg hn0]
          simp⟩
      · exact ⟨T3 cq sinA n - T2 cq sinA n, by
          rw [happ]
          refine List.mem_append_right _ ?_
          unfold block1
          rw [if_neg hn0]
          simp⟩
      · exact ⟨T4 cq sinA n - T1 cq sinA n, by
          rw [happ]
          refine List.mem_append_right _ ?_
          unfold block1
          rw [if_neg hn0]
          simp⟩
      · exact ⟨T4 cq sinA n - T1 cq sinA n, by
          rw [happ]
          refine List.mem_append_right _ ?_
          unfold block1
          rw [if_neg hn0]
          simp⟩

/-- Every entry written during the first `n` cycles is recorded in `W2`. -/
theorem W2_idx_cover (cq mf : ℕ) (sinA : ℕ → ℤ) (hmf : 4 ≤ mf)
    (hmod : mf % 4 = 0) :
    ∀ n, n ≤ mf / 4 → ∀ i, wrAt mf n i →
      ∃ v, (i, v) ∈ W2 cq mf sinA n := by
  intro n
  induction n with
  | zero =>
    intro _ i hw
    exfalso
    unfold wrAt cnt at hw
    omega
  | succ n ih =>
    intro hn i hw
    rcases Nat.eq_zero_or_pos n with hn0 | hn1
    · subst hn0
      have hsplit : i = mf - 1 ∨ i = 2 * mf - 1 ∨ i = mf ∨
          i = 2 * mf - 2 ∨ i = 0 ∨ i = mf - 2 := by
        unfold wrAt cnt at hw
        omega
      rcases hsplit with rfl | rfl | rfl | rfl | rfl | rfl
      · exact ⟨T1 cq sinA 0 + T2 cq sinA 0, by simp [W2, block2]⟩
      · exact ⟨T1 cq sinA 0 + T2 cq sinA 0, by simp [W2, block2]⟩
      · exact ⟨T4 cq sinA 0 - T1 cq sinA 0, by simp [W2, block2]⟩
      · exact ⟨T4 cq sinA 0 - T1 cq sinA 0, by simp [W2, block2]⟩
      · exact ⟨T3 cq sinA 0 - T2 cq sinA 0, by simp [W2, block2]⟩
      · exact ⟨T3 cq sinA 0 - T2 cq sinA 0, by simp [W2, block2]⟩
    · have hn0 : ¬ n = 0 := by omega
      have hsplit : wrAt mf n i ∨ i = 2 * n - 1 ∨ i = mf - 2 - (2 * n - 1) ∨
          i = mf + (2 * n - 1) ∨ i = 2 * mf - 2 - (2 * n - 1) ∨
          i = mf + (2 * n - 1) + 1 ∨ i = 2 * mf - 2 - (2 * n - 1) - 1 ∨
          i = 2 * n - 1 + 1 ∨ i = mf - 2 - (2 * n - 1) - 1 := by
        unfold wrAt cnt at hw ⊢
        omega
      have happ : W2 cq mf sinA (n + 1)
          = W2 cq mf sinA n ++ block2 cq mf sinA n := rfl
      rcases hsplit with hw' | rfl | rfl | rfl | rfl | rfl | rfl | rfl | rfl
      · obtain ⟨v, hv⟩ := ih (by omega) i hw'
        exact ⟨v, by rw [happ]; exact List.mem_append_left _ hv⟩
      · exact ⟨T2 cq sinA n - T3 cq sinA (n - 1), by
          rw [happ]
          refine List.mem_append_right _ ?_
          unfold block2
          rw [if_neg hn0]
          simp⟩
      · exact ⟨T2 cq sinA n - T3 cq sinA (n - 1), by
          rw [happ]
          refine List.mem_append_right _ ?_
          unfold block2
          rw [if_neg hn0]
          simp⟩
      · exact ⟨T1 cq sinA n - T4 cq sinA (n - 1), by
          rw [happ]
          refine List.mem_append_right _ ?_
          unfold block2
          rw [if_neg hn0]
          simp⟩
      · exact ⟨T1 cq sinA n - T4 cq sinA (n - 1), by
          rw [happ]
          refine List.mem_append_right _ ?_
          unfold block2
          rw [if_neg hn0]
          simp⟩
      · exact ⟨T4 cq sinA n - T1 cq sinA n, by
          rw [happ]
          refine List.mem_append_right _ ?_
          unfold block2
          rw [if_neg hn0]
          simp⟩
      · exact ⟨T4 cq sinA n - T1 cq sinA n, by
          rw [happ]
          refine List.mem_append_right _ ?_
          unfold block2
          rw [if_neg hn0]
          simp⟩
      · exact ⟨T3 cq sinA n - T2 cq sinA n, by
          rw [happ]
          refine List.mem_append_right _ ?_
          unfold block2
          rw [if_neg hn0]
          simp⟩
      · exact ⟨T3 cq sinA n - T2 cq sinA n, by
          rw [happ]
          refine List.mem_append_right _ ?_
          unfold block2
          rw [if_neg hn0]
          simp⟩

/-- Claim C9: for every valid configuration, every store performed by the
synthesis targets an index inside `[0, 2·mf)`, and after the function
returns every one of the `2·mf` entries of each table has been written. -/
theorem c9_store_coverage (cq mf : ℕ) (sinA : ℕ → ℤ)
    (h : GoodRun cq mf sinA) :
    (∀ p ∈ (spwm_unipolar_arrays cq mf sinA (zeroTable mf) (zeroTable mf)
      0 0).w1, p.1 < 2 * mf) ∧
    (∀ p ∈ (spwm_unipolar_arrays cq mf sinA (zeroTable mf) (zeroTable mf)
      0 0).w2, p.1 < 2 * mf) ∧
    (∀ i, i < 2 * mf →
      (∃ v, (i, v) ∈ (spwm_unipolar_arrays cq mf sinA (zeroTable mf)
        (zeroTable mf) 0 0).w1) ∧
      (∃ v, (i, v) ∈ (spwm_unipolar_arrays cq mf sinA (zeroTable mf)
        (zeroTable mf) 0 0).w2)) := by
  have hmf := h.mf_ge
  have hmod := h.mf_mod
  rw [spwm_out_char cq mf sinA _ _ 0 0 (by omega) h.found]
  refine ⟨?_, ?_, ?_⟩
  · intro p hp
    rw [show W1full cq mf sinA
      = W1 cq mf sinA (mf / 4) ++ fin1 cq mf sinA (mf / 4) from rfl,
      List.mem_append] at hp
    rcases hp with hp | hp
    · exact W1_idx_lt cq mf sinA hmf hmod (mf / 4) (le_refl _) p hp
    · unfold fin1 at hp
      simp only [List.mem_cons, List.not_mem_nil, or_false] at hp
      rcases hp with rfl | rfl <;> dsimp only <;> omega
  · intro p hp
    rw [show W2full cq mf sinA
      = W2 cq mf sinA (mf / 4) ++ fin2 cq mf sinA (mf / 4) from rfl,
      List.mem_append] at hp
    rcases hp with hp | hp
    · exact W2_idx_lt cq mf sinA hmf hmod (mf / 4) (le_refl _) p hp
    · unfold fin2 at hp
      simp only [List.mem_cons, List.not_mem_nil, or_false] at hp
      rcases hp with rfl | rfl <;> dsimp only <;> omega
  · intro i hi
    have hsplit : wrAt mf (mf / 4) i ∨ i = 2 * (mf / 4) - 1 ∨
        i = mf + (2 * (mf / 4) - 1) := by
      unfold wrAt cnt
      omega
    constructor
    · rcases hsplit with hw | rfl | rfl
      · obtain ⟨v, hv⟩ := W1_idx_cover cq mf sinA hmf hmod (mf / 4)
          (le_refl _) i hw
        exact ⟨v, List.mem_append_left _ hv⟩
      · exact ⟨2 * (signal_duration_quarter cq mf
          - T4 cq sinA (mf / 4 - 1)),
          List.mem_append_right _ (by unfold fin1; simp)⟩
      · exact ⟨2 * (signal_duration_quarter cq mf
          - T3 cq sinA (mf / 4 - 1)),
          List.mem_append_right _ (by unfold fin1; simp)⟩
    · rcases hsplit with hw | rfl | rfl
      · obtain ⟨v, hv⟩ := W2_idx_cover cq mf sinA hmf hmod (mf / 4)
          (le_refl _) i hw
        exact ⟨v, List.mem_append_left _ hv⟩
      · exact ⟨2 * (signal_duration_quarter cq mf
          - T3 cq sinA (mf / 4 - 1)),
          List.mem_append_right _ (by unfold fin2; simp)⟩
      · exact ⟨2 * (signal_duration_quarter cq mf
          - T4 cq sinA (mf / 4 - 1)),
          List.mem_append_right _ (by unfold fin2; simp)⟩

/-- Claim C9 (witness): at the witness configuration, the first recorded
store into table 1 targets index 3, inside the table. -/
theorem c9_store_coverage_witness : ((3 : ℕ), (8 : ℕ)).1 < 2 * 4 :=
  (c9_store_coverage 4 4 wOracle wOracle_good).1 (3, 8) (by decide)

end SpwmUni
